import Mathlib

/-!
Verification of the telegram-chat-parser core against its specification.

The Go sources are shallowly embedded: Go structs become Lean structures,
Go maps become association lists (or `Finset`s when only the key set
matters), `time.Time` instants become natural numbers (`0` encodes the
zero time), and Go's `uint32` arithmetic is modelled as natural-number
arithmetic modulo `2^32`.  Fallible operations return `Option`.
-/

namespace ChatParser

/-! ## Domain model (package `internal/domain`) -/

/-- `domain.TextEntity`: a rich part of a message text (mention, link, ...). -/
structure TextEntity where
  type : String
  text : String
deriving DecidableEq, Repr

/-- `domain.Message`: one message of an exported chat.  The Go field `From`
is called `fromName` here because `from` is a reserved word in Lean. -/
structure Message where
  type : String
  fromName : String
  fromID : String
  actor : String
  actorID : String
  textEntities : List TextEntity
deriving DecidableEq, Repr

/-- `domain.ExportedChat`: parsed input document. -/
structure ExportedChat where
  name : String
  chatType : String
  id : Int
  messages : List Message
deriving DecidableEq, Repr

/-- `domain.User`: enriched output record (`ID` is Go `int64`). -/
structure User where
  id : Int
  name : String
  username : String
  bio : String
  channel : String
deriving DecidableEq, Repr

/-- `domain.RawParticipant`: pre-enrichment participant reference. -/
structure RawParticipant where
  userID : String
  name : String
  username : String
deriving DecidableEq, Repr

/-! ## Result cache (`internal/cache`, `CacheStore`)

The Go `map[string]*CacheItem` is an association list; `time.Time` is a
natural number instant, with `time.Time.After` being strict `<` reversed. -/

/-- `cache.CacheItem`: cached value plus its expiration instant. -/
structure CacheItem where
  data : List User
  expiresAt : Nat
deriving DecidableEq, Repr

/-- The store's backing map. -/
def CacheMap : Type := List (String × CacheItem)

/-- Raw map lookup used by `CacheStore.Get`. -/
def cacheFind (cs : CacheMap) (key : String) : Option CacheItem :=
  (List.find? (fun p => p.1 = key) cs).map (fun p => p.2)

/-- `CacheStore.Get`: return the item only when present and not expired.
The Go guard is `!exists || time.Now().After(item.ExpiresAt)`, and
`now.After(t)` means `t < now`. -/
def cacheGet (cs : CacheMap) (key : String) (now : Nat) : Option CacheItem :=
  match cacheFind cs key with
  | none => none
  | some item => if item.expiresAt < now then none else some item

/-! ## Round-robin strategy (`internal/telegram/router/round_robin.go`)

The `uint32` counter is a natural number below `2^32`; `atomic.AddUint32`
adds modulo `2^32` and the `- 1` wraps the same way.  `clients[i]` is
`List.get?` (Go would panic out of range; that cannot happen when the
modulus is non-zero). -/

/-- `2^32`, the wrap modulus of the strategy's `uint32` counter. -/
def uint32Mod : Nat := 4294967296

/-- `RoundRobinStrategy.Next`: returns the selected client (or `none` for
the `ErrNoHealthyClients` case) together with the new counter value.  On
the empty slice the counter is returned untouched, as the Go code returns
before the atomic increment. -/
def rrNext {α : Type} (currentIndex : Nat) (clients : List α) : Option α × Nat :=
  if clients.length = 0 then
    (none, currentIndex)
  else
    let newCounter := (currentIndex + 1) % uint32Mod
    let idx := (newCounter + (uint32Mod - 1)) % uint32Mod
    (clients.get? (idx % (clients.length % uint32Mod)), newCounter)

/-! ## Upstream client cool-down (`internal/telegram`, `Client.do`)

The cool-down state is the single field `unhealthyUntil` (`0` encodes the
zero `time.Time`).  Each RPC verb funnels through `Client.do`, which
checks the cool-down state before touching the underlying API; the
embedding records in `apiInvoked` whether the wrapped API function ran. -/

/-- The client's mutable cool-down state (`Client.unhealthyUntil`). -/
structure ClientState where
  unhealthyUntil : Nat
deriving DecidableEq, Repr

/-- An error reported by the underlying API, already classified by
whether its text matches the `FLOOD_WAIT (N)` pattern of
`parseFloodWait` (seconds are carried along). -/
inductive ApiError where
  | floodWait (seconds : Nat)
  | other (msg : String)
deriving DecidableEq, Repr

/-- An error surfaced by the client: either the dedicated cool-down error
`ErrFloodWaitActive` from `checkHealthStatus`, or the operation's own
error passed through by `do`. -/
inductive ClientError where
  | floodWaitActive
  | opFailed (e : ApiError)
deriving DecidableEq, Repr

/-- `Client.checkHealthStatus`: fail with `ErrFloodWaitActive` when
`unhealthyUntil` is non-zero and the clock is strictly before it. -/
def checkHealthStatus (s : ClientState) (now : Nat) : Option ClientError :=
  if s.unhealthyUntil ≠ 0 ∧ now < s.unhealthyUntil then some ClientError.floodWaitActive
  else none

/-- `Client.handleError`: on a `FLOOD_WAIT (N)` error set
`unhealthyUntil := now + N`; other errors leave the state alone. -/
def clientHandleError (s : ClientState) (now : Nat) (e : ApiError) : ClientState :=
  match e with
  | ApiError.floodWait secs => { s with unhealthyUntil := now + secs }
  | ApiError.other _ => s

/-- Result of one `Client.do` call: the operation's value and error, the
client state afterwards, and whether the underlying API function was
invoked at all. -/
structure DoOutcome (α : Type) where
  result : Option α
  error : Option ClientError
  state : ClientState
  apiInvoked : Bool
deriving DecidableEq, Repr

/-- `Client.do`: check the cool-down state first and abort without calling
the API when it is active; otherwise run the operation (its outcome is the
parameter `op`) and feed any error through `handleError`. -/
def clientDo {α : Type} (s : ClientState) (now : Nat)
    (op : Option α × Option ApiError) : DoOutcome α :=
  match checkHealthStatus s now with
  | some e => ⟨none, some e, s, false⟩
  | none =>
    match op.2 with
    | some e => ⟨op.1, some (ClientError.opFailed e), clientHandleError s now e, true⟩
    | none => ⟨op.1, none, s, true⟩

/-- Minimal image of `tg.User` (only what the enrichment reads). -/
structure TgUser where
  id : Int
  accessHash : Option Int
  firstName : String
  lastName : String
  username : String
deriving DecidableEq, Repr

/-- Minimal image of `tg.ContactsResolvedPeer`. -/
structure ResolvedPeer where
  users : List TgUser
deriving DecidableEq, Repr

/-- Minimal image of `tg.UsersUserFull` (the `About` bio string). -/
structure UserFull where
  about : String
deriving DecidableEq, Repr

/-- Minimal image of `tg.Config`, the health probe's reply. -/
structure TgConfig where
  ok : Bool
deriving DecidableEq, Repr

/-- `Client.UsersGetUsers`: the get-users-by-id verb, via `do`. -/
def clientUsersGetUsers (s : ClientState) (now : Nat)
    (apiResult : Option (List TgUser) × Option ApiError) : DoOutcome (List TgUser) :=
  clientDo s now apiResult

/-- `Client.ContactsResolveUsername`: the resolve-username verb, via `do`. -/
def clientContactsResolveUsername (s : ClientState) (now : Nat)
    (apiResult : Option ResolvedPeer × Option ApiError) : DoOutcome ResolvedPeer :=
  clientDo s now apiResult

/-- `Client.UsersGetFullUser`: the get-full-user verb, via `do`. -/
def clientUsersGetFullUser (s : ClientState) (now : Nat)
    (apiResult : Option UserFull × Option ApiError) : DoOutcome UserFull :=
  clientDo s now apiResult

/-- `Client.Health`: checks the cool-down state, then issues the
lightweight `HelpGetConfig` probe through `do`. -/
def clientHealth (s : ClientState) (now : Nat)
    (probeResult : Option TgConfig × Option ApiError) : DoOutcome TgConfig :=
  match checkHealthStatus s now with
  | some e => ⟨none, some e, s, false⟩
  | none => clientDo s now probeResult

/-! ## Extraction (`ExtractionServiceImpl.ExtractRawParticipants`)

The two Go `map[string]bool` dedup sets become lists of already-seen keys
(only membership is ever consulted); emitted participants are appended to
an accumulator, preserving the source's output order. -/

/-- The author entity id of a message: `ActorID` for service messages,
`FromID` otherwise. -/
def entityID (m : Message) : String :=
  if m.type = "service" then m.actorID else m.fromID

/-- The author entity name of a message: `Actor` for service messages,
`From` otherwise. -/
def entityName (m : Message) : String :=
  if m.type = "service" then m.actor else m.fromName

/-- `strings.HasPrefix s pre`: `pre` is a leading substring of `s`
(modelled over the character lists so that it evaluates). -/
def goStringHasStart (s pre : String) : Bool :=
  pre.data.isPrefixOf s.data

/-- The author filter of the extraction: the id starts with the literal
`user`, the name is non-empty and is not `Deleted Account`. -/
def authorOK (m : Message) : Prop :=
  goStringHasStart (entityID m) "user" = true ∧
  entityName m ≠ "" ∧ entityName m ≠ "Deleted Account"

instance (m : Message) : Decidable (authorOK m) := by
  unfold authorOK
  infer_instance

/-- The inner loop over `msg.TextEntities`: emit a mention-only
participant for each `mention` entity whose text was not seen before. -/
def processEntities (entities : List TextEntity) (seenMentions : List String)
    (acc : List RawParticipant) : List String × List RawParticipant :=
  match entities with
  | [] => (seenMentions, acc)
  | t :: rest =>
    if t.type = "mention" then
      if t.text ∈ seenMentions then
        processEntities rest seenMentions acc
      else
        processEntities rest (t.text :: seenMentions) (acc ++ [⟨"", "", t.text⟩])
    else
      processEntities rest seenMentions acc

/-- The per-message loop of `ExtractRawParticipants`, threading the two
dedup sets and the output accumulator. -/
def extractLoop (msgs : List Message) (seenUsers seenMentions : List String)
    (acc : List RawParticipant) : List RawParticipant :=
  match msgs with
  | [] => acc
  | m :: rest =>
    let su : List String × List RawParticipant :=
      if authorOK m ∧ entityID m ∉ seenUsers then
        (entityID m :: seenUsers, acc ++ [⟨entityID m, entityName m, ""⟩])
      else
        (seenUsers, acc)
    let sm := processEntities m.textEntities seenMentions su.2
    extractLoop rest su.1 sm.1 sm.2

/-- `ExtractRawParticipants` (the `error` result is always `nil`). -/
def extractRawParticipants (chat : ExportedChat) : List RawParticipant :=
  extractLoop chat.messages [] [] []

/-! ## Enrichment result merge (`EnrichmentService.Enrich`, coordinator loop)

The Go `map[int64]domain.User` becomes an association list with unique
keys; map assignment is `upsertUser`.  `id = 0` users go to the separate
`unidentified` list. -/

/-- The coordinator's dedup map together with the unidentified list. -/
structure MergeState where
  identified : List (Int × User)
  unidentified : List User
deriving DecidableEq, Repr

/-- Lookup in the dedup map (`enrichedUsersMap[id]`). -/
def lookupId (m : List (Int × User)) (i : Int) : Option User :=
  (List.find? (fun p => p.1 = i) m).map (fun p => p.2)

/-- Map assignment `enrichedUsersMap[i] = v`: replace the entry with key
`i`, or append a fresh one. -/
def upsertUser (m : List (Int × User)) (i : Int) (v : User) : List (Int × User) :=
  match m with
  | [] => [(i, v)]
  | p :: rest => if p.1 = i then (i, v) :: rest else p :: upsertUser rest i v

/-- One merge step of the coordinator for a successfully enriched user:
`id = 0` is appended to the unidentified list; a non-zero id with a
username overrides; a non-zero id without a username is inserted only if
absent. -/
def mergeStep (st : MergeState) (u : User) : MergeState :=
  if u.id = 0 then
    { st with unidentified := st.unidentified ++ [u] }
  else if u.username ≠ "" then
    { st with identified := upsertUser st.identified u.id u }
  else
    match lookupId st.identified u.id with
    | some _ => st
    | none => { st with identified := upsertUser st.identified u.id u }

/-- The merge of a whole sequence of successful results. -/
def mergeResults (rs : List User) : MergeState :=
  rs.foldl mergeStep ⟨[], []⟩

/-- The user list `Enrich` builds on exit: the map's values followed by
the unidentified users. -/
def flattenState (st : MergeState) : List User :=
  st.identified.map (fun p => p.2) ++ st.unidentified

/-- `enrichResult`: what a worker sends back for one participant.  `err`
marks a terminal processing error; `isSet` distinguishes a real user from
a not-resolvable participant. -/
structure EnrichResult where
  user : User
  isSet : Bool
  err : Bool
deriving DecidableEq, Repr

/-- Merge behaviour of the coordinator for one received result. -/
def applyResult (st : MergeState) (r : EnrichResult) : MergeState :=
  if r.err then st
  else if r.isSet then mergeStep st r.user
  else st

/-- One event observed by the coordinator's `select`: either a worker
result arrives, or the global deadline (`ctx.Done()`) fires. -/
inductive LoopEvent where
  | res (r : EnrichResult)
  | deadline
deriving DecidableEq, Repr

/-- Outcome of the collection loop: `timedOut us` is the partial list
returned together with the deadline-exceeded error; `finished us errs`
is the normal exit (with the number of joined processing errors);
`blocked` marks an event trace on which the real loop would still be
waiting. -/
inductive EnrichOutcome where
  | timedOut (users : List User)
  | finished (users : List User) (errs : Nat)
  | blocked
deriving DecidableEq, Repr

/-- The coordinator's collection loop (`for finishedCount < n { select ... }`):
`n` is the unique-participant count, `errs` the running error count and
`fin` the running terminal-outcome count. -/
def collectLoop (n : Nat) (st : MergeState) (errs fin : Nat)
    (events : List LoopEvent) : EnrichOutcome :=
  if n ≤ fin then EnrichOutcome.finished (flattenState st) errs
  else
    match events with
    | [] => EnrichOutcome.blocked
    | LoopEvent.deadline :: _ => EnrichOutcome.timedOut (flattenState st)
    | LoopEvent.res r :: rest =>
      collectLoop n (applyResult st r) (if r.err then errs + 1 else errs) (fin + 1) rest
termination_by events.length
decreasing_by simp

/-! ## Bio channel extraction (`extractChannelFromBio`)

The compiled Go regular expression is
`(?:@|t\.me/)([a-zA-Z0-9_]{5,})` and `FindStringSubmatch` uses
leftmost-first matching.  For this pattern that means: scan positions
left to right; at the first position where `@` or `t.me/` is followed by
a maximal run of at least five word characters, capture that (greedy)
run. -/

/-- The character class `[a-zA-Z0-9_]` (ASCII, as in Go). -/
def wordChar (c : Char) : Bool :=
  c.isAlpha || c.isDigit || c = '_'

/-- The literal `t.me/` as characters. -/
def tmeChars : List Char := ['t', '.', 'm', 'e', '/']

/-- Try the whole pattern anchored at the start of `s`: a `@` or `t.me/`
marker followed by at least five word characters; the greedy capture is
the maximal word-character run. -/
def matchAt (s : List Char) : Option (List Char) :=
  match s with
  | '@' :: rest =>
    let run := rest.takeWhile wordChar
    if 5 ≤ run.length then some run else none
  | 't' :: '.' :: 'm' :: 'e' :: '/' :: rest =>
    let run := rest.takeWhile wordChar
    if 5 ≤ run.length then some run else none
  | _ => none

/-- Leftmost match: try every position from the left. -/
def findChannel (s : List Char) : Option (List Char) :=
  match s with
  | [] => none
  | _ :: rest =>
    match matchAt s with
    | some r => some r
    | none => findChannel rest

/-- `extractChannelFromBio`: the first match's capture group, or `""`. -/
def extractChannelFromBio (bio : String) : String :=
  if bio = "" then ""
  else
    match findChannel bio.data with
    | some r => String.mk r
    | none => ""

/-- `p` occurs contiguously inside `s`. -/
def occursIn (p s : List Char) : Prop :=
  ∃ l r, s = l ++ p ++ r

/-! ## Task data and the paged-result handler (`internal/server/server.go`)

Only the `GET /tasks/{id}/result` handler is modelled.  In the source the
`page` and `page_size` query parameters are read but the `strconv`
parsing is commented out, so `parsedPage`/`parsedPageSize` always keep
their defaults `1` and `50`. -/

/-- `server.TaskStatus`. -/
inductive TaskStatus where
  | pending
  | processing
  | completed
  | failed
deriving DecidableEq, Repr

/-- `server.Task` (the fields the result handler reads). -/
structure Task where
  id : String
  status : TaskStatus
  result : List User
  errorMessage : String
deriving DecidableEq, Repr

/-- The handler's possible responses. -/
inductive ResultResponse where
  | notFound
  | badRequest
  | ok (currentPage pageSize totalItems totalPages : Nat) (data : List User)
deriving DecidableEq, Repr

/-- The `GET /tasks/{taskID}/result` handler body: 404 for an unknown
task, 400 unless completed, otherwise the slice
`task.Result[startIndex:endIndex]` for the (unconditionally default)
pagination values.  `page` and `pageSize` are the raw query parameters;
the source inspects them for emptiness but never parses them. -/
def resultHandler (task : Option Task) (page pageSize : Option String) : ResultResponse :=
  match task with
  | none => ResultResponse.notFound
  | some t =>
    if t.status ≠ TaskStatus.completed then ResultResponse.badRequest
    else
      let parsedPage := 1
      let parsedPageSize := 50
      -- the `if page != "" { ... }` and `if pageSize != "" { ... }` blocks
      -- of the source are empty: the parsing calls are commented out
      let offset := (parsedPage - 1) * parsedPageSize
      let startIndex := if offset ≥ t.result.length then t.result.length else offset
      let endIndex0 := if offset ≥ t.result.length then t.result.length else offset + parsedPageSize
      let endIndex := if endIndex0 > t.result.length then t.result.length else endIndex0
      let paginatedData := (t.result.drop startIndex).take (endIndex - startIndex)
      let totalItems := t.result.length
      let totalPages := (totalItems + parsedPageSize - 1) / parsedPageSize
      ResultResponse.ok parsedPage parsedPageSize totalItems totalPages paginatedData

/-- The window of a result list a paging request asks for: entries
`[(page-1)*size, page*size)`.  This is what the specification says the
endpoint should serve; the handler is compared against it. -/
def pageWindow (res : List User) (page size : Nat) : List User :=
  (res.drop ((page - 1) * size)).take size

/-! ## Client router (`internal/telegram/router/router.go`)

The three id-keyed structures (`healthy`, `unhealthy`,
`scheduledRecovery`) become `Finset String`s of client ids.  To reason
about the proactive-recovery timers the state additionally counts, per
client id, the timers armed by `time.AfterFunc` that have not fired yet
(`armed`) and the fired timer bodies that have not yet cleared the
scheduled flag (`pending`).  Times are natural numbers; `0` encodes the
zero `time.Time` and `now.After(t)` is `t < now`. -/

/-- The router state visible to the recovery logic. -/
structure RouterState where
  healthy : Finset String
  unhealthy : Finset String
  scheduled : Finset String
  armed : String → Nat
  pending : String → Nat

/-- `Router.setClientUnhealthy`: move the client from `healthy` to
`unhealthy`; a no-op when it is not in `healthy`. -/
def setClientUnhealthy (s : RouterState) (id : String) : RouterState :=
  if id ∈ s.healthy then
    { s with healthy := s.healthy.erase id, unhealthy := insert id s.unhealthy }
  else s

/-- `Router.setClientHealthy`: move the client from `unhealthy` back to
`healthy`; a no-op when it is not in `unhealthy`. -/
def setClientHealthy (s : RouterState) (id : String) : RouterState :=
  if id ∈ s.unhealthy then
    { s with unhealthy := s.unhealthy.erase id, healthy := insert id s.healthy }
  else s

/-- The scheduling half of `Router.handleClientError`: when the client's
`recoveryTime` is non-zero and not in the past (`!rt.IsZero() && !now.After(rt)`)
and no recovery is scheduled yet, set the `scheduledRecovery` flag and arm
a one-shot timer (`time.AfterFunc`). -/
def scheduleRecovery (s : RouterState) (id : String) (recoveryTime now : Nat) : RouterState :=
  if recoveryTime = 0 ∨ recoveryTime < now then s
  else if id ∈ s.scheduled then s
  else
    { s with scheduled := insert id s.scheduled,
             armed := fun x => if x = id then s.armed x + 1 else s.armed x }

/-- `Router.handleClientError`: move the client to the unhealthy pool,
then possibly schedule a proactive recovery. -/
def handleClientError (s : RouterState) (id : String) (recoveryTime now : Nat) : RouterState :=
  scheduleRecovery (setClientUnhealthy s id) id recoveryTime now

/-- A scheduled timer fires: it stops being armed and its body becomes
pending execution. -/
def fireTimer (s : RouterState) (id : String) : RouterState :=
  { s with armed := fun x => if x = id then s.armed x - 1 else s.armed x,
           pending := fun x => if x = id then s.pending x + 1 else s.pending x }

/-- The first lock section of `Router.checkAndRecoverClient`, run by the
fired timer's body: clear the `scheduledRecovery` flag (the health probe
and the possible promotion happen afterwards, outside the lock). -/
def runTimerBody (s : RouterState) (id : String) : RouterState :=
  { s with scheduled := s.scheduled.erase id,
           pending := fun x => if x = id then s.pending x - 1 else s.pending x }

/-- One interleaved event of the router's concurrent execution.  The
handler's two lock sections are separate steps; `promote` covers both the
timer body's successful re-probe and the periodic health-check loop
(`setClientHealthy` in either caller). -/
inductive RouterStep : RouterState → RouterState → Prop where
  | toUnhealthy (s : RouterState) (id : String) :
      RouterStep s (setClientUnhealthy s id)
  | schedule (s : RouterState) (id : String) (recoveryTime now : Nat) :
      RouterStep s (scheduleRecovery s id recoveryTime now)
  | fire (s : RouterState) (id : String) (h : 0 < s.armed id) :
      RouterStep s (fireTimer s id)
  | body (s : RouterState) (id : String) (h : 0 < s.pending id) :
      RouterStep s (runTimerBody s id)
  | promote (s : RouterState) (id : String) :
      RouterStep s (setClientHealthy s id)

/-- A router state is initial when no recovery is scheduled and no timer
exists, as after `NewRouter` (the client pools are arbitrary). -/
def RouterInit (s : RouterState) : Prop :=
  s.scheduled = ∅ ∧ (∀ id, s.armed id = 0) ∧ (∀ id, s.pending id = 0)

/-- Reachability under interleaved router events. -/
def RouterReachable (s0 s : RouterState) : Prop :=
  Relation.ReflTransGen RouterStep s0 s

/-! ## Auxiliary predicates used by the theorem statements -/

/-- The last element of a list satisfying `p`, if any. -/
def lastFilter {α : Type} (p : α → Bool) : List α → Option α
  | [] => none
  | a :: rest =>
    match lastFilter p rest with
    | some w => some w
    | none => if p a then some a else none

/-- The first element of a list satisfying `p`, if any. -/
def firstFilter {α : Type} (p : α → Bool) : List α → Option α
  | [] => none
  | a :: rest => if p a then some a else firstFilter p rest

/-- The keys of the dedup map are pairwise distinct. -/
def KeysNodup (m : List (Int × User)) : Prop :=
  (m.map (fun p => p.1)).Nodup

/-- A result sequence is id-consistent when, for each non-zero id, any
two results for that id that both carry a username agree, and when no
result for that id carries a username, any two results for it agree.
Under this proviso (and only under it) the merge is order-independent. -/
def idConsistent (rs : List User) : Prop :=
  ∀ u ∈ rs, ∀ v ∈ rs, u.id = v.id → u.id ≠ 0 →
    (u.username ≠ "" → v.username ≠ "" → u = v) ∧
    ((∀ w ∈ rs, w.id = u.id → w.username = "") → u = v)

/-- The timer-counting invariant of the router: per client at most one
timer or pending body exists, and none at all unless the
`scheduledRecovery` flag is set. -/
def RouterInv (s : RouterState) : Prop :=
  ∀ id, s.armed id + s.pending id ≤ 1 ∧
    (id ∉ s.scheduled → s.armed id + s.pending id = 0)

/-! ## Theorems -/

/-- C9 counterexample: with an entry for `"k"` expiring at instant `5`, a
read at exactly instant `5` returns the entry, although the claim says a
read at `now` equal to the expiry is a miss (`now < expiry` fails). -/
theorem cacheGet_at_expiry_cex :
    cacheGet [("k", ⟨[], 5⟩)] "k" 5 = some ⟨[], 5⟩ ∧ ¬ (5 < 5) := by
  constructor
  · rfl
  · decide

/-- C9 (amended): `get(k)` returns the stored entry iff an entry for `k`
is present and `now ≤ expiry`; in every other case, and in particular
whenever `now` is strictly after the expiry, it returns a miss. -/
theorem cacheGet_spec (cs : CacheMap) (key : String) (now : Nat) :
    (∀ item, cacheGet cs key now = some item ↔
      cacheFind cs key = some item ∧ now ≤ item.expiresAt) ∧
    (∀ item, cacheFind cs key = some item → item.expiresAt < now →
      cacheGet cs key now = none) := by
  constructor
  · intro item
    unfold cacheGet
    cases h : cacheFind cs key with
    | none => simp
    | some it =>
      by_cases hlt : it.expiresAt < now
      · simp only [if_pos hlt]
        constructor
        · intro habs
          exact absurd habs (by simp)
        · rintro ⟨hit, hle⟩
          injection hit with hit
          subst hit
          omega
      · simp only [if_neg hlt]
        constructor
        · intro hsome
          injection hsome with hsome
          subst hsome
          exact ⟨rfl, by omega⟩
        · rintro ⟨hit, _⟩
          injection hit with hit
          subst hit
          rfl
  · intro item hfind hlt
    unfold cacheGet
    rw [hfind]
    simp [hlt]

/-- C9 witness: instantiating the amended theorem at a concrete store. -/
theorem cacheGet_spec_witness :
    cacheGet [("k", CacheItem.mk [] 5)] "k" 3 = some (CacheItem.mk [] 5) := by
  exact ((cacheGet_spec [("k", CacheItem.mk [] 5)] "k" 3).1 (CacheItem.mk [] 5)).mpr
    ⟨rfl, by decide⟩

/-- C10: the round-robin counter is a `uint32` incremented with
wrap-around: the empty slice yields the no-healthy-clients failure with
the counter untouched; a call at counter `c` over `n` clients returns
`clients[c mod n]` and leaves the counter at `(c+1) mod 2^32`; after the
call at counter `2^32 - 1` the counter has wrapped to `0`, and when `n`
does not divide `2^32` the wrapped position `0 mod n` differs from the
true-call-count position `2^32 mod n`. -/
theorem roundRobin_spec {α : Type} (clients : List α) (c : Nat) :
    (rrNext c ([] : List α) = (none, c)) ∧
    (c < uint32Mod → 0 < clients.length → clients.length < uint32Mod →
      rrNext c clients = (clients.get? (c % clients.length), (c + 1) % uint32Mod)) ∧
    (0 < clients.length → clients.length < uint32Mod → ¬ (clients.length ∣ uint32Mod) →
      (rrNext (uint32Mod - 1) clients).2 = 0 ∧
      0 % clients.length ≠ uint32Mod % clients.length) := by
  refine ⟨rfl, ?_, ?_⟩
  · intro hc hpos hlt
    have hne : ¬ clients.length = 0 := by omega
    have hidx : ((c + 1) % uint32Mod + (uint32Mod - 1)) % uint32Mod = c := by
      unfold uint32Mod at *
      omega
    have hlen : clients.length % uint32Mod = clients.length := Nat.mod_eq_of_lt hlt
    simp only [rrNext, if_neg hne]
    rw [hidx, hlen]
  · intro hpos hlt hdvd
    have hne : ¬ clients.length = 0 := by omega
    constructor
    · simp only [rrNext, if_neg hne]
      unfold uint32Mod
      omega
    · intro habs
      apply hdvd
      have : uint32Mod % clients.length = 0 := by
        rw [← habs]
        exact (Nat.zero_mod _).symm ▸ by omega
      exact Nat.dvd_of_mod_eq_zero this

/-- C10 witness: three clients at counter `2^32 - 1`: the element at
index `(2^32 - 1) mod 3 = 0` is selected and the counter wraps to `0`. -/
theorem roundRobin_spec_witness :
    rrNext 4294967295 ["a", "b", "c"] = (some "a", 0) := by
  have h := (roundRobin_spec ["a", "b", "c"] 4294967295).2.1
    (by decide) (by decide) (by decide)
  rw [h]
  rfl

/-- C4: while the cool-down state records a strictly-future recovery time
(`unhealthyUntil` non-zero and the clock before it), every RPC verb and
the health probe fail immediately with `ErrFloodWaitActive`, leave the
state unchanged, and never invoke the underlying API function. -/
theorem client_cooldown_blocks (s : ClientState) (now : Nat)
    (r1 : Option (List TgUser) × Option ApiError)
    (r2 : Option ResolvedPeer × Option ApiError)
    (r3 : Option UserFull × Option ApiError)
    (r4 : Option TgConfig × Option ApiError)
    (hz : s.unhealthyUntil ≠ 0) (hlt : now < s.unhealthyUntil) :
    clientUsersGetUsers s now r1 = ⟨none, some ClientError.floodWaitActive, s, false⟩ ∧
    clientContactsResolveUsername s now r2 = ⟨none, some ClientError.floodWaitActive, s, false⟩ ∧
    clientUsersGetFullUser s now r3 = ⟨none, some ClientError.floodWaitActive, s, false⟩ ∧
    clientHealth s now r4 = ⟨none, some ClientError.floodWaitActive, s, false⟩ := by
  have h : checkHealthStatus s now = some ClientError.floodWaitActive := by
    unfold checkHealthStatus
    simp [hz, hlt]
  refine ⟨?_, ?_, ?_, ?_⟩ <;>
    simp [clientUsersGetUsers, clientContactsResolveUsername, clientUsersGetFullUser,
      clientHealth, clientDo, h]

/-- C4 witness: a client cooling down until instant `10`, probed at
instant `3`. -/
theorem client_cooldown_blocks_witness :
    clientUsersGetUsers ⟨10⟩ 3 (none, none) =
      ⟨none, some ClientError.floodWaitActive, ⟨10⟩, false⟩ :=
  (client_cooldown_blocks ⟨10⟩ 3 (none, none) (none, none) (none, none) (none, none)
    (by decide) (by decide)).1

/-- C8 counterexample: a completed task with 15 stored users, requested
with `page=2&page_size=5`, answers with all 15 users and the default
pagination metadata instead of the claimed window `[5, 10)`. -/
theorem resultHandler_ignores_params_cex :
    resultHandler
      (some ⟨"t", TaskStatus.completed,
        (List.range 15).map (fun i => ⟨(i : Int), "", "", "", ""⟩), ""⟩)
      (some "2") (some "5") =
      ResultResponse.ok 1 50 15 1
        ((List.range 15).map (fun i => ⟨(i : Int), "", "", "", ""⟩)) ∧
    ((List.range 15).map (fun i => (⟨(i : Int), "", "", "", ""⟩ : User))) ≠
      pageWindow ((List.range 15).map (fun i => ⟨(i : Int), "", "", "", ""⟩)) 2 5 := by
  constructor
  · rfl
  · decide

/-- C8 (amended): for a completed task the response data is always the
window `[0, 50)` of the stored result: the `page` and `page_size` query
parameters are ignored (their parsing is commented out in the source) and
the defaults `page = 1`, `page_size = 50` are used unconditionally; a
task that is not completed gets a 400, an unknown task a 404. -/
theorem resultHandler_spec (t : Task) (page pageSize : Option String) :
    (t.status = TaskStatus.completed →
      resultHandler (some t) page pageSize =
        ResultResponse.ok 1 50 t.result.length ((t.result.length + 50 - 1) / 50)
          (t.result.take 50)) ∧
    (t.status ≠ TaskStatus.completed →
      resultHandler (some t) page pageSize = ResultResponse.badRequest) ∧
    resultHandler none page pageSize = ResultResponse.notFound := by
  refine ⟨?_, ?_, rfl⟩
  · intro hc
    have hne : ¬ t.status ≠ TaskStatus.completed := by simp [hc]
    by_cases hz : t.result.length = 0
    · have hnil : t.result = [] := List.length_eq_zero.mp hz
      simp [resultHandler, hne, hnil]
    · have h1 : ¬ ((1 - 1) * 50 ≥ t.result.length) := by omega
      by_cases h2 : (1 - 1) * 50 + 50 > t.result.length
      · have hle : t.result.length ≤ 50 := by omega
        simp only [resultHandler, if_neg hne, if_neg h1, if_pos h2]
        have e : (1 - 1) * 50 = 0 := rfl
        simp only [e, List.drop_zero, Nat.sub_zero, List.take_length]
        rw [List.take_of_length_le hle]
      · simp only [resultHandler, if_neg hne, if_neg h1, if_neg h2]
        rfl
  · intro hne
    simp [resultHandler, hne]

/-- C8 witness: a completed task holding two users answers with both of
them and default pagination, whatever the query parameters say. -/
theorem resultHandler_spec_witness :
    resultHandler
      (some ⟨"t", TaskStatus.completed, [⟨1, "x", "", "", ""⟩, ⟨2, "y", "", "", ""⟩], ""⟩)
      (some "3") (some "1") =
      ResultResponse.ok 1 50 2 1 [⟨1, "x", "", "", ""⟩, ⟨2, "y", "", "", ""⟩] := by
  have h := (resultHandler_spec
    ⟨"t", TaskStatus.completed, [⟨1, "x", "", "", ""⟩, ⟨2, "y", "", "", ""⟩], ""⟩
    (some "3") (some "1")).1 rfl
  rw [h]
  rfl

/-- C6 counterexample: a client that is already in the unhealthy pool but
has no scheduled recovery, with a future recovery time (`5`, clock at
`3`): the handler is not a no-op — it sets the `scheduledRecovery` flag
and arms a fresh timer. -/
theorem handleClientError_not_noop_cex :
    ("c" ∈ (RouterState.mk ∅ {"c"} ∅ (fun _ => 0) (fun _ => 0)).unhealthy) ∧
    ("c" ∉ (RouterState.mk ∅ {"c"} ∅ (fun _ => 0) (fun _ => 0)).scheduled) ∧
    (handleClientError (RouterState.mk ∅ {"c"} ∅ (fun _ => 0) (fun _ => 0)) "c" 5 3).scheduled ≠
      (RouterState.mk ∅ {"c"} ∅ (fun _ => 0) (fun _ => 0)).scheduled ∧
    (handleClientError (RouterState.mk ∅ {"c"} ∅ (fun _ => 0) (fun _ => 0)) "c" 5 3).armed "c" = 1 := by
  refine ⟨by decide, by decide, ?_, ?_⟩
  · show (handleClientError _ "c" 5 3).scheduled ≠ ∅
    simp [handleClientError, setClientUnhealthy, scheduleRecovery]
  · simp [handleClientError, setClientUnhealthy, scheduleRecovery]

/-- C6 (amended): if recovery is already scheduled for the client, the
handler leaves the scheduled set and the timers unchanged; if the client
is moreover already unhealthy, or is already unhealthy with a zero or
past recovery time, the handler is a complete no-op; an already-unhealthy
client never changes the healthy/unhealthy partition, but when its
recovery time is non-zero, not in the past and not yet scheduled, the
handler still sets the scheduled flag and arms a new recovery timer. -/
theorem handleClientError_frame (s : RouterState) (id : String) (rt now : Nat) :
    (id ∈ s.scheduled →
      (handleClientError s id rt now).scheduled = s.scheduled ∧
      (handleClientError s id rt now).armed = s.armed ∧
      (handleClientError s id rt now).pending = s.pending) ∧
    (id ∉ s.healthy → id ∈ s.scheduled → handleClientError s id rt now = s) ∧
    (id ∉ s.healthy → (rt = 0 ∨ rt < now) → handleClientError s id rt now = s) ∧
    (id ∉ s.healthy →
      (handleClientError s id rt now).healthy = s.healthy ∧
      (handleClientError s id rt now).unhealthy = s.unhealthy) ∧
    (id ∉ s.healthy → id ∉ s.scheduled → rt ≠ 0 → ¬ (rt < now) →
      (handleClientError s id rt now).scheduled = insert id s.scheduled ∧
      (handleClientError s id rt now).armed id = s.armed id + 1) := by
  refine ⟨?_, ?_, ?_, ?_, ?_⟩
  · intro hsch
    unfold handleClientError scheduleRecovery setClientUnhealthy
    by_cases hh : id ∈ s.healthy <;> by_cases hz : rt = 0 ∨ rt < now <;>
      simp [hh, hz, hsch]
  · intro hh hsch
    unfold handleClientError scheduleRecovery setClientUnhealthy
    by_cases hz : rt = 0 ∨ rt < now <;> simp [hh, hz, hsch]
  · intro hh hz
    unfold handleClientError scheduleRecovery setClientUnhealthy
    simp [hh, hz]
  · intro hh
    unfold handleClientError scheduleRecovery setClientUnhealthy
    by_cases hz : rt = 0 ∨ rt < now <;> by_cases hsch : id ∈ s.scheduled <;>
      simp [hh, hz, hsch]
  · intro hh hsch hz hlt
    have hz2 : ¬ (rt = 0 ∨ rt < now) := by
      push_neg
      exact ⟨hz, by omega⟩
    unfold handleClientError scheduleRecovery setClientUnhealthy
    simp [hh, hz2, hsch]

/-- C6 witness: a scheduled, already-unhealthy client makes the handler a
complete no-op. -/
theorem handleClientError_frame_witness :
    handleClientError (RouterState.mk ∅ {"c"} {"c"} (fun _ => 0) (fun _ => 0)) "c" 5 3 =
      RouterState.mk ∅ {"c"} {"c"} (fun _ => 0) (fun _ => 0) :=
  (handleClientError_frame (RouterState.mk ∅ {"c"} {"c"} (fun _ => 0) (fun _ => 0))
    "c" 5 3).2.1 (by decide) (by decide)

theorem ite_upd_self {beta : Type} (x : String) (a b : beta) :
    (if x = x then a else b) = a := if_pos rfl

theorem ite_upd_other {beta : Type} {x y : String} (hx : x ≠ y) (a b : beta) :
    (if x = y then a else b) = b := if_neg hx

theorem routerInv_step {s t : RouterState} (hst : RouterStep s t) (hinv : RouterInv s) :
    RouterInv t := by
  cases hst with
  | toUnhealthy id =>
    intro x
    unfold setClientUnhealthy
    split <;> exact hinv x
  | schedule id rt now =>
    intro x
    unfold scheduleRecovery
    by_cases hz : rt = 0 ∨ rt < now
    · simp only [if_pos hz]
      exact hinv x
    · simp only [if_neg hz]
      by_cases hsch : id ∈ s.scheduled
      · simp only [if_pos hsch]
        exact hinv x
      · simp only [if_neg hsch]
        by_cases hx : x = id
        · subst hx
          have h0 : s.armed x + s.pending x = 0 := (hinv x).2 hsch
          refine ⟨?_, ?_⟩
          · rw [ite_upd_self]
            omega
          · intro hnotin
            exact absurd (Finset.mem_insert_self x s.scheduled) hnotin
        · refine ⟨?_, ?_⟩
          · rw [ite_upd_other hx]
            exact (hinv x).1
          · intro hnotin
            have hx2 : x ∉ s.scheduled := fun hc =>
              hnotin (Finset.mem_insert_of_mem hc)
            rw [ite_upd_other hx]
            exact (hinv x).2 hx2
  | fire id h =>
    intro x
    have h1 := (hinv x).1
    have h2 := (hinv x).2
    by_cases hx : x = id
    · subst hx
      refine ⟨?_, ?_⟩
      · simp only [fireTimer, if_true]
        omega
      · intro hnotin
        simp only [fireTimer] at hnotin
        have h0 := h2 hnotin
        simp only [fireTimer, if_true]
        omega
    · refine ⟨?_, ?_⟩
      · simp only [fireTimer, ite_upd_other hx]
        exact h1
      · intro hnotin
        simp only [fireTimer] at hnotin
        have h0 := h2 hnotin
        simp only [fireTimer, ite_upd_other hx]
        omega
  | body id h =>
    intro x
    have h1 := (hinv x).1
    have h2 := (hinv x).2
    by_cases hx : x = id
    · subst hx
      refine ⟨?_, ?_⟩
      · simp only [runTimerBody, if_true]
        omega
      · intro _
        simp only [runTimerBody, if_true]
        omega
    · have hx2 : x ∉ s.scheduled → s.armed x + s.pending x = 0 := h2
      refine ⟨?_, ?_⟩
      · simp only [runTimerBody, ite_upd_other hx]
        exact h1
      · intro hnotin
        simp only [runTimerBody] at hnotin
        have hxs : x ∉ s.scheduled := by
          intro hc
          exact hnotin (Finset.mem_erase.mpr ⟨hx, hc⟩)
        have h0 := hx2 hxs
        simp only [runTimerBody, ite_upd_other hx]
        omega
  | promote id =>
    intro x
    unfold setClientHealthy
    split <;> exact hinv x


/-- C5: from any initial router state (no scheduled recovery, no armed
timer, no pending timer body), every state reachable by interleaving the
error handler's two lock sections, timer firings, timer bodies and pool
promotions has at most one outstanding proactive-recovery timer per
client. -/
theorem router_at_most_one_timer (s0 s : RouterState) (h0 : RouterInit s0)
    (hr : RouterReachable s0 s) : ∀ id, s.armed id ≤ 1 := by
  have hinv : RouterInv s := by
    unfold RouterReachable at hr
    induction hr with
    | refl =>
      intro id
      obtain ⟨-, ha, hp⟩ := h0
      rw [ha id, hp id]
      exact ⟨by omega, fun _ => rfl⟩
    | tail _ hstep ih => exact routerInv_step hstep ih
  intro id
  have := (hinv id).1
  omega

/-- C5 witness: the initial state itself, reached by the empty
interleaving. -/
theorem router_at_most_one_timer_witness :
    (RouterState.mk ∅ ∅ ∅ (fun _ => 0) (fun _ => 0)).armed "c" ≤ 1 :=
  router_at_most_one_timer (RouterState.mk ∅ ∅ ∅ (fun _ => 0) (fun _ => 0))
    (RouterState.mk ∅ ∅ ∅ (fun _ => 0) (fun _ => 0))
    ⟨rfl, fun _ => rfl, fun _ => rfl⟩ Relation.ReflTransGen.refl "c"

theorem takeWhile_all_wordChar (l : List Char) :
    (l.takeWhile wordChar).all wordChar = true := by
  induction l with
  | nil => rfl
  | cons c rest ih =>
    by_cases hc : wordChar c = true
    · simp [List.takeWhile_cons, hc, ih]
    · simp [List.takeWhile_cons, hc]

theorem occursIn_cons (c : Char) (p s : List Char) (h : occursIn p s) :
    occursIn p (c :: s) := by
  obtain ⟨l, r, hlr⟩ := h
  exact ⟨c :: l, r, by simp [hlr]⟩

theorem matchAt_sound (s r : List Char) (h : matchAt s = some r) :
    5 ≤ r.length ∧ r.all wordChar = true ∧
    (∃ rest, s = '@' :: (r ++ rest) ∨ s = tmeChars ++ (r ++ rest)) := by
  unfold matchAt at h
  split at h
  · rename_i rest0
    dsimp only at h
    split at h
    · rename_i h5
      injection h with hr
      subst hr
      refine ⟨h5, takeWhile_all_wordChar rest0, rest0.dropWhile wordChar, Or.inl ?_⟩
      rw [List.takeWhile_append_dropWhile]
    · exact absurd h (by simp)
  · rename_i rest0
    dsimp only at h
    split at h
    · rename_i h5
      injection h with hr
      subst hr
      refine ⟨h5, takeWhile_all_wordChar rest0, rest0.dropWhile wordChar, Or.inr ?_⟩
      show _ = tmeChars ++ _
      unfold tmeChars
      simp [List.takeWhile_append_dropWhile]
    · exact absurd h (by simp)
  · exact absurd h (by simp)

theorem findChannel_sound (s r : List Char) (h : findChannel s = some r) :
    5 ≤ r.length ∧ r.all wordChar = true ∧
    (occursIn ('@' :: r) s ∨ occursIn (tmeChars ++ r) s) := by
  induction s with
  | nil => exact absurd h (by simp [findChannel])
  | cons c rest ih =>
    unfold findChannel at h
    cases hm : matchAt (c :: rest) with
    | some r0 =>
      rw [hm] at h
      injection h with hr
      subst hr
      obtain ⟨h5, hall, rest2, hdec⟩ := matchAt_sound _ _ hm
      refine ⟨h5, hall, ?_⟩
      cases hdec with
      | inl hat => exact Or.inl ⟨[], rest2, by simpa using hat⟩
      | inr htme => exact Or.inr ⟨[], rest2, by simpa using htme⟩
    | none =>
      rw [hm] at h
      obtain ⟨h5, hall, hocc⟩ := ih h
      refine ⟨h5, hall, ?_⟩
      cases hocc with
      | inl ho => exact Or.inl (occursIn_cons c _ _ ho)
      | inr ho => exact Or.inr (occursIn_cons c _ _ ho)

/-- C7 counterexample: the captured tail `short` has exactly five
characters, so the `{5,}` quantifier accepts it: the extracted channel
for the bio `"@short"` is `"short"`, not `""` as the claim states — in
agreement with the repository's own unit test. -/
theorem extractChannel_short_cex :
    extractChannelFromBio "@short" = "short" ∧ ("short" : String) ≠ "" := by
  exact ⟨rfl, by decide⟩

/-- C7 (amended): the channel is the first capture group of
`(?:@|t\.me/)([A-Za-z0-9_]{5,})` over the bio, or `""` when there is no
match; on the example bios the results are `"channel1"`, `"start"` and
`"short"` (not `""`: `short` meets the five-character minimum).  Every
non-empty extracted channel has at least five characters, consists of
word characters only, and occurs in the bio right after a `@` or `t.me/`
marker. -/
theorem extractChannelFromBio_spec :
    extractChannelFromBio "Follow @channel1 and @channel2" = "channel1" ∧
    extractChannelFromBio "t.me/start" = "start" ∧
    extractChannelFromBio "@short" = "short" ∧
    (∀ bio : String, extractChannelFromBio bio ≠ "" →
      5 ≤ (extractChannelFromBio bio).length ∧
      (extractChannelFromBio bio).data.all wordChar = true ∧
      (occursIn ('@' :: (extractChannelFromBio bio).data) bio.data ∨
       occursIn (tmeChars ++ (extractChannelFromBio bio).data) bio.data)) := by
  refine ⟨rfl, rfl, rfl, ?_⟩
  intro bio hne
  by_cases hb : bio = ""
  · exact absurd (by simp [extractChannelFromBio, hb]) hne
  · cases hf : findChannel bio.data with
    | none => exact absurd (by simp [extractChannelFromBio, hb, hf]) hne
    | some r =>
      have hval : extractChannelFromBio bio = String.mk r := by
        simp [extractChannelFromBio, hb, hf]
      obtain ⟨h5, hall, hocc⟩ := findChannel_sound _ _ hf
      rw [hval]
      exact ⟨h5, hall, hocc⟩

/-- C7 witness: instantiating the soundness part at a concrete bio. -/
theorem extractChannelFromBio_spec_witness :
    5 ≤ (extractChannelFromBio "reach me at t.me/my_chan1").length :=
  (extractChannelFromBio_spec.2.2.2 "reach me at t.me/my_chan1" (by decide)).1

theorem collectLoop_deadline_aux (n : Nat) (results : List EnrichResult) :
    ∀ (st : MergeState) (errs fin : Nat) (rest : List LoopEvent),
      fin + results.length < n →
      collectLoop n st errs fin (results.map LoopEvent.res ++ LoopEvent.deadline :: rest) =
        EnrichOutcome.timedOut (flattenState (results.foldl applyResult st)) := by
  induction results with
  | nil =>
    intro st errs fin rest h
    unfold collectLoop
    rw [if_neg (by omega)]
    rfl
  | cons r rs ih =>
    intro st errs fin rest h
    have hlen : fin + (r :: rs).length < n := h
    unfold collectLoop
    rw [if_neg (by simp at hlen; omega)]
    simp only [List.map_cons, List.cons_append]
    rw [ih (applyResult st r) (if r.err then errs + 1 else errs) (fin + 1) rest
      (by simp at hlen ⊢; omega)]
    rw [List.foldl_cons]

/-- C3: whenever the global deadline fires before all `n` unique
participants have reached a terminal outcome (fewer than `n` results
observed), the collection loop exits through the deadline branch,
returning exactly the users collected so far — the merged identified
users followed by the unidentified list — wrapped in the
deadline-exceeded outcome; no partial result is discarded. -/
theorem enrich_deadline_partial (n : Nat) (results : List EnrichResult)
    (rest : List LoopEvent) (h : results.length < n) :
    collectLoop n ⟨[], []⟩ 0 0 (results.map LoopEvent.res ++ LoopEvent.deadline :: rest) =
      EnrichOutcome.timedOut (flattenState (results.foldl applyResult ⟨[], []⟩)) :=
  collectLoop_deadline_aux n results ⟨[], []⟩ 0 0 rest (by omega)

/-- C3 witness: two participants, one successful result merged, deadline
fires: the one collected user is returned with the timeout outcome. -/
theorem enrich_deadline_partial_witness :
    collectLoop 2 ⟨[], []⟩ 0 0
      [LoopEvent.res ⟨⟨5, "x", "", "", ""⟩, true, false⟩, LoopEvent.deadline] =
      EnrichOutcome.timedOut [⟨5, "x", "", "", ""⟩] := by
  have h := enrich_deadline_partial 2 [⟨⟨5, "x", "", "", ""⟩, true, false⟩] []
    (by decide)
  simpa using h

theorem startsWith_user_ne (e : String) (h : goStringHasStart e "user" = true) : e ≠ "" := by
  intro he
  subst he
  exact absurd h (by decide)

theorem processEntities_seen (ts : List TextEntity) :
    ∀ (sm : List String) (acc : List RawParticipant) (u : String),
      u ∈ (processEntities ts sm acc).1 ↔
        u ∈ sm ∨ ∃ t ∈ ts, t.type = "mention" ∧ t.text = u := by
  induction ts with
  | nil =>
    intro sm acc u
    simp [processEntities]
  | cons t ts ih =>
    intro sm acc u
    unfold processEntities
    by_cases hm : t.type = "mention"
    · by_cases hs : t.text ∈ sm
      · rw [if_pos hm, if_pos hs, ih]
        constructor
        · rintro (h | ⟨t2, ht2, hty, htx⟩)
          · exact Or.inl h
          · exact Or.inr ⟨t2, List.mem_cons_of_mem _ ht2, hty, htx⟩
        · rintro (h | ⟨t2, ht2, hty, htx⟩)
          · exact Or.inl h
          · rcases List.mem_cons.mp ht2 with rfl | hmem
            · exact Or.inl (htx ▸ hs)
            · exact Or.inr ⟨t2, hmem, hty, htx⟩
      · rw [if_pos hm, if_neg hs, ih]
        constructor
        · rintro (h | ⟨t2, ht2, hty, htx⟩)
          · rcases List.mem_cons.mp h with rfl | hmem
            · exact Or.inr ⟨t, List.mem_cons_self _ _, hm, rfl⟩
            · exact Or.inl hmem
          · exact Or.inr ⟨t2, List.mem_cons_of_mem _ ht2, hty, htx⟩
        · rintro (h | ⟨t2, ht2, hty, htx⟩)
          · exact Or.inl (List.mem_cons_of_mem _ h)
          · rcases List.mem_cons.mp ht2 with rfl | hmem
            · exact Or.inl (htx ▸ List.mem_cons_self _ _)
            · exact Or.inr ⟨t2, hmem, hty, htx⟩
    · rw [if_neg hm, ih]
      constructor
      · rintro (h | ⟨t2, ht2, hty, htx⟩)
        · exact Or.inl h
        · exact Or.inr ⟨t2, List.mem_cons_of_mem _ ht2, hty, htx⟩
      · rintro (h | ⟨t2, ht2, hty, htx⟩)
        · exact Or.inl h
        · rcases List.mem_cons.mp ht2 with rfl | hmem
          · exact absurd hty hm
          · exact Or.inr ⟨t2, hmem, hty, htx⟩

theorem processEntities_count_mention (ts : List TextEntity) :
    ∀ (sm : List String) (acc : List RawParticipant) (u : String),
      ((processEntities ts sm acc).2.countP
          (fun r => decide (r.userID = "" ∧ r.username = u))) =
        acc.countP (fun r => decide (r.userID = "" ∧ r.username = u)) +
        (if u ∉ sm ∧ ∃ t ∈ ts, t.type = "mention" ∧ t.text = u then 1 else 0) := by
  induction ts with
  | nil =>
    intro sm acc u
    simp [processEntities]
  | cons t ts ih =>
    intro sm acc u
    unfold processEntities
    by_cases hm : t.type = "mention"
    · by_cases hs : t.text ∈ sm
      · rw [if_pos hm, if_pos hs, ih]
        congr 1
        by_cases hu : u = t.text
        · subst hu
          simp [hs]
        · have hiff : (∃ t2 ∈ t :: ts, t2.type = "mention" ∧ t2.text = u) ↔
              (∃ t2 ∈ ts, t2.type = "mention" ∧ t2.text = u) := by
            constructor
            · rintro ⟨t2, ht2, hty, htx⟩
              rcases List.mem_cons.mp ht2 with rfl | hmem
              · exact absurd htx.symm hu
              · exact ⟨t2, hmem, hty, htx⟩
            · rintro ⟨t2, ht2, hty, htx⟩
              exact ⟨t2, List.mem_cons_of_mem _ ht2, hty, htx⟩
          simp only [hiff]
      · rw [if_pos hm, if_neg hs, ih]
        rw [List.countP_append]
        by_cases hu : u = t.text
        · subst hu
          have h1 : List.countP (fun r => decide (r.userID = "" ∧ r.username = t.text))
              [({ userID := "", name := "", username := t.text } : RawParticipant)] = 1 := by
            simp [List.countP_cons]
          rw [h1]
          have hnotin : t.text ∉ t.text :: sm ↔ False := by
            simp
          have hc1 : ¬ (t.text ∉ t.text :: sm ∧ ∃ t2 ∈ ts, t2.type = "mention" ∧ t2.text = t.text) := by
            rintro ⟨hna, -⟩
            exact hna (List.mem_cons_self _ _)
          have hc2 : (t.text ∉ sm ∧ ∃ t2 ∈ t :: ts, t2.type = "mention" ∧ t2.text = t.text) := by
            exact ⟨hs, t, List.mem_cons_self _ _, hm, rfl⟩
          rw [if_neg hc1, if_pos hc2]
        · have h0 : List.countP (fun r => decide (r.userID = "" ∧ r.username = u))
              [({ userID := "", name := "", username := t.text } : RawParticipant)] = 0 := by
            simp [List.countP_cons]
            intro h
            exact absurd h.symm hu
          rw [h0]
          have hmem : u ∉ t.text :: sm ↔ u ∉ sm := by
            simp [hu]
          have hiff : (∃ t2 ∈ t :: ts, t2.type = "mention" ∧ t2.text = u) ↔
              (∃ t2 ∈ ts, t2.type = "mention" ∧ t2.text = u) := by
            constructor
            · rintro ⟨t2, ht2, hty, htx⟩
              rcases List.mem_cons.mp ht2 with rfl | hmemv
              · exact absurd htx.symm hu
              · exact ⟨t2, hmemv, hty, htx⟩
            · rintro ⟨t2, ht2, hty, htx⟩
              exact ⟨t2, List.mem_cons_of_mem _ ht2, hty, htx⟩
          simp only [hmem, hiff]
          omega
    · rw [if_neg hm, ih]
      congr 1
      have hiff : (∃ t2 ∈ t :: ts, t2.type = "mention" ∧ t2.text = u) ↔
          (∃ t2 ∈ ts, t2.type = "mention" ∧ t2.text = u) := by
        constructor
        · rintro ⟨t2, ht2, hty, htx⟩
          rcases List.mem_cons.mp ht2 with rfl | hmem
          · exact absurd hty hm
          · exact ⟨t2, hmem, hty, htx⟩
        · rintro ⟨t2, ht2, hty, htx⟩
          exact ⟨t2, List.mem_cons_of_mem _ ht2, hty, htx⟩
      simp only [hiff]

theorem processEntities_count_other (ts : List TextEntity) :
    ∀ (sm : List String) (acc : List RawParticipant) (p : RawParticipant → Bool),
      (∀ x : String, p ⟨"", "", x⟩ = false) →
      (processEntities ts sm acc).2.countP p = acc.countP p := by
  induction ts with
  | nil =>
    intro sm acc p hp
    simp [processEntities]
  | cons t ts ih =>
    intro sm acc p hp
    unfold processEntities
    by_cases hm : t.type = "mention"
    · by_cases hs : t.text ∈ sm
      · rw [if_pos hm, if_pos hs, ih _ _ _ hp]
      · rw [if_pos hm, if_neg hs, ih _ _ _ hp, List.countP_append]
        have h0 : List.countP p [({ userID := "", name := "", username := t.text } : RawParticipant)] = 0 := by
          simp [List.countP_cons, hp t.text]
        rw [h0]
        omega
    · rw [if_neg hm, ih _ _ _ hp]

theorem processEntities_mem (ts : List TextEntity) :
    ∀ (sm : List String) (acc : List RawParticipant) (r : RawParticipant),
      r ∈ (processEntities ts sm acc).2 →
      r ∈ acc ∨ ∃ t ∈ ts, t.type = "mention" ∧ r = ⟨"", "", t.text⟩ := by
  induction ts with
  | nil =>
    intro sm acc r h
    exact Or.inl (by simpa [processEntities] using h)
  | cons t ts ih =>
    intro sm acc r h
    unfold processEntities at h
    by_cases hm : t.type = "mention"
    · by_cases hs : t.text ∈ sm
      · rw [if_pos hm, if_pos hs] at h
        rcases ih _ _ _ h with h2 | ⟨t2, ht2, hty, hr⟩
        · exact Or.inl h2
        · exact Or.inr ⟨t2, List.mem_cons_of_mem _ ht2, hty, hr⟩
      · rw [if_pos hm, if_neg hs] at h
        rcases ih _ _ _ h with h2 | ⟨t2, ht2, hty, hr⟩
        · rcases List.mem_append.mp h2 with h3 | h3
          · exact Or.inl h3
          · rcases List.mem_singleton.mp h3 with rfl
            exact Or.inr ⟨t, List.mem_cons_self _ _, hm, rfl⟩
        · exact Or.inr ⟨t2, List.mem_cons_of_mem _ ht2, hty, hr⟩
    · rw [if_neg hm] at h
      rcases ih _ _ _ h with h2 | ⟨t2, ht2, hty, hr⟩
      · exact Or.inl h2
      · exact Or.inr ⟨t2, List.mem_cons_of_mem _ ht2, hty, hr⟩

set_option maxHeartbeats 1000000 in
theorem extractLoop_count_author (msgs : List Message) :
    ∀ (su sm : List String) (acc : List RawParticipant) (e : String), e ≠ "" →
      (extractLoop msgs su sm acc).countP (fun r => decide (r.userID = e)) =
        acc.countP (fun r => decide (r.userID = e)) +
        (if e ∉ su ∧ ∃ m ∈ msgs, entityID m = e ∧ authorOK m then 1 else 0) := by
  induction msgs with
  | nil =>
    intro su sm acc e he
    simp [extractLoop]
  | cons m rest ih =>
    intro su sm acc e he
    unfold extractLoop
    by_cases hA : authorOK m ∧ entityID m ∉ su
    · rw [if_pos hA]
      dsimp only
      rw [ih _ _ _ _ he]
      rw [processEntities_count_other _ _ _ _ (fun x => decide_eq_false (fun hc => he hc.symm))]
      rw [List.countP_append]
      by_cases hid : entityID m = e
      · subst hid
        have h1 : List.countP (fun r => decide (r.userID = entityID m))
            [({ userID := entityID m, name := entityName m, username := "" } : RawParticipant)] = 1 := by
          simp [List.countP_cons]
        rw [h1]
        have hc1 : ¬ (entityID m ∉ entityID m :: su ∧
            ∃ m2 ∈ rest, entityID m2 = entityID m ∧ authorOK m2) := by
          rintro ⟨hna, -⟩
          exact hna (List.mem_cons_self _ _)
        have hc2 : entityID m ∉ su ∧
            ∃ m2 ∈ m :: rest, entityID m2 = entityID m ∧ authorOK m2 :=
          ⟨hA.2, m, List.mem_cons_self _ _, rfl, hA.1⟩
        rw [if_neg hc1, if_pos hc2]
      · have h0 : List.countP (fun r => decide (r.userID = e))
            [({ userID := entityID m, name := entityName m, username := "" } : RawParticipant)] = 0 := by
          simp [List.countP_cons, hid]
        rw [h0]
        have hmem : (e ∉ entityID m :: su) ↔ e ∉ su := by
          simp only [List.mem_cons, not_or]
          constructor
          · rintro ⟨-, h2⟩
            exact h2
          · intro h2
            exact ⟨fun hc => hid hc.symm, h2⟩
        have hiff : (∃ m2 ∈ m :: rest, entityID m2 = e ∧ authorOK m2) ↔
            (∃ m2 ∈ rest, entityID m2 = e ∧ authorOK m2) := by
          constructor
          · rintro ⟨m2, hm2, hide, hok⟩
            rcases List.mem_cons.mp hm2 with rfl | hmem2
            · exact absurd hide hid
            · exact ⟨m2, hmem2, hide, hok⟩
          · rintro ⟨m2, hm2, hide, hok⟩
            exact ⟨m2, List.mem_cons_of_mem _ hm2, hide, hok⟩
        simp only [hmem, hiff]
        omega
    · rw [if_neg hA]
      dsimp only
      rw [ih _ _ _ _ he]
      rw [processEntities_count_other _ _ _ _ (fun x => decide_eq_false (fun hc => he hc.symm))]
      congr 1
      by_cases hq : entityID m = e ∧ authorOK m
      · have hsu : e ∈ su := by
          rcases hq with ⟨hide, hok⟩
          by_contra hnot
          exact hA ⟨hok, hide ▸ hnot⟩
        have hc1 : ¬ (e ∉ su ∧ ∃ m2 ∈ rest, entityID m2 = e ∧ authorOK m2) := by
          rintro ⟨hna, -⟩
          exact hna hsu
        have hc2 : ¬ (e ∉ su ∧ ∃ m2 ∈ m :: rest, entityID m2 = e ∧ authorOK m2) := by
          rintro ⟨hna, -⟩
          exact hna hsu
        rw [if_neg hc1, if_neg hc2]
      · have hiff : (∃ m2 ∈ m :: rest, entityID m2 = e ∧ authorOK m2) ↔
            (∃ m2 ∈ rest, entityID m2 = e ∧ authorOK m2) := by
          constructor
          · rintro ⟨m2, hm2, hide, hok⟩
            rcases List.mem_cons.mp hm2 with rfl | hmem2
            · exact absurd ⟨hide, hok⟩ hq
            · exact ⟨m2, hmem2, hide, hok⟩
          · rintro ⟨m2, hm2, hide, hok⟩
            exact ⟨m2, List.mem_cons_of_mem _ hm2, hide, hok⟩
        simp only [hiff]

set_option maxHeartbeats 1000000 in
theorem extractLoop_count_mention (msgs : List Message) :
    ∀ (su sm : List String) (acc : List RawParticipant) (u : String),
      (extractLoop msgs su sm acc).countP
          (fun r => decide (r.userID = "" ∧ r.username = u)) =
        acc.countP (fun r => decide (r.userID = "" ∧ r.username = u)) +
        (if u ∉ sm ∧ ∃ m ∈ msgs, ∃ t ∈ m.textEntities, t.type = "mention" ∧ t.text = u
         then 1 else 0) := by
  induction msgs with
  | nil =>
    intro su sm acc u
    simp [extractLoop]
  | cons m rest ih =>
    intro su sm acc u
    unfold extractLoop
    have hstep : ∀ (acc2 : List RawParticipant) (su2 : List String),
        (extractLoop rest su2 (processEntities m.textEntities sm acc2).1
            (processEntities m.textEntities sm acc2).2).countP
            (fun r => decide (r.userID = "" ∧ r.username = u)) =
          acc2.countP (fun r => decide (r.userID = "" ∧ r.username = u)) +
          (if u ∉ sm ∧ ∃ m2 ∈ m :: rest, ∃ t ∈ m2.textEntities,
              t.type = "mention" ∧ t.text = u then 1 else 0) := by
      intro acc2 su2
      rw [ih]
      rw [processEntities_count_mention]
      have hsm := processEntities_seen m.textEntities sm acc2 u
      by_cases h1 : u ∈ sm
      · have c1 : ¬ (u ∉ sm ∧ ∃ t ∈ m.textEntities, t.type = "mention" ∧ t.text = u) :=
          fun hc => hc.1 h1
        have hin : u ∈ (processEntities m.textEntities sm acc2).1 := hsm.mpr (Or.inl h1)
        have c2 : ¬ (u ∉ (processEntities m.textEntities sm acc2).1 ∧
            ∃ m2 ∈ rest, ∃ t ∈ m2.textEntities, t.type = "mention" ∧ t.text = u) :=
          fun hc => hc.1 hin
        have c3 : ¬ (u ∉ sm ∧ ∃ m2 ∈ m :: rest, ∃ t ∈ m2.textEntities,
            t.type = "mention" ∧ t.text = u) := fun hc => hc.1 h1
        rw [if_neg c1, if_neg c2, if_neg c3]
      · by_cases h2 : ∃ t ∈ m.textEntities, t.type = "mention" ∧ t.text = u
        · have c1 : u ∉ sm ∧ ∃ t ∈ m.textEntities, t.type = "mention" ∧ t.text = u :=
            ⟨h1, h2⟩
          have hin : u ∈ (processEntities m.textEntities sm acc2).1 := hsm.mpr (Or.inr h2)
          have c2 : ¬ (u ∉ (processEntities m.textEntities sm acc2).1 ∧
              ∃ m2 ∈ rest, ∃ t ∈ m2.textEntities, t.type = "mention" ∧ t.text = u) :=
            fun hc => hc.1 hin
          have c3 : u ∉ sm ∧ ∃ m2 ∈ m :: rest, ∃ t ∈ m2.textEntities,
              t.type = "mention" ∧ t.text = u :=
            ⟨h1, m, List.mem_cons_self _ _, h2⟩
          rw [if_neg c2, if_pos c1, if_pos c3]
        · have c1 : ¬ (u ∉ sm ∧ ∃ t ∈ m.textEntities, t.type = "mention" ∧ t.text = u) :=
            fun hc => h2 hc.2
          have hnotin : u ∉ (processEntities m.textEntities sm acc2).1 := by
            intro hin
            rcases hsm.mp hin with h | h
            · exact h1 h
            · exact h2 h
          by_cases h3 : ∃ m2 ∈ rest, ∃ t ∈ m2.textEntities, t.type = "mention" ∧ t.text = u
          · have c2 : u ∉ (processEntities m.textEntities sm acc2).1 ∧
                ∃ m2 ∈ rest, ∃ t ∈ m2.textEntities, t.type = "mention" ∧ t.text = u :=
              ⟨hnotin, h3⟩
            have c3 : u ∉ sm ∧ ∃ m2 ∈ m :: rest, ∃ t ∈ m2.textEntities,
                t.type = "mention" ∧ t.text = u := by
              obtain ⟨m2, hm2, ht⟩ := h3
              exact ⟨h1, m2, List.mem_cons_of_mem _ hm2, ht⟩
            rw [if_neg c1, if_pos c2, if_pos c3]
          · have c2 : ¬ (u ∉ (processEntities m.textEntities sm acc2).1 ∧
                ∃ m2 ∈ rest, ∃ t ∈ m2.textEntities, t.type = "mention" ∧ t.text = u) :=
              fun hc => h3 hc.2
            have c3 : ¬ (u ∉ sm ∧ ∃ m2 ∈ m :: rest, ∃ t ∈ m2.textEntities,
                t.type = "mention" ∧ t.text = u) := by
              rintro ⟨-, m2, hm2, ht⟩
              rcases List.mem_cons.mp hm2 with rfl | hmem
              · exact h2 ht
              · exact h3 ⟨m2, hmem, ht⟩
            rw [if_neg c1, if_neg c2, if_neg c3]
    by_cases hA : authorOK m ∧ entityID m ∉ su
    · rw [if_pos hA]
      dsimp only
      rw [hstep]
      rw [List.countP_append]
      have hidne : entityID m ≠ "" := startsWith_user_ne _ hA.1.1
      have h0 : List.countP (fun r => decide (r.userID = "" ∧ r.username = u))
          [({ userID := entityID m, name := entityName m, username := "" } : RawParticipant)] = 0 := by
        simp only [List.countP_cons, List.countP_nil]
        have : ¬ ((entityID m = "") ∧ (("" : String) = u)) := fun hc => hidne hc.1
        simp [this]
      rw [h0]
      omega
    · rw [if_neg hA]
      dsimp only
      rw [hstep]

theorem extractLoop_mem (msgs : List Message) :
    ∀ (su sm : List String) (acc : List RawParticipant) (r : RawParticipant),
      r ∈ extractLoop msgs su sm acc →
      r ∈ acc ∨
      (∃ m ∈ msgs, authorOK m ∧ r = ⟨entityID m, entityName m, ""⟩) ∨
      (∃ m ∈ msgs, ∃ t ∈ m.textEntities, t.type = "mention" ∧ r = ⟨"", "", t.text⟩) := by
  induction msgs with
  | nil =>
    intro su sm acc r h
    exact Or.inl (by simpa [extractLoop] using h)
  | cons m rest ih =>
    intro su sm acc r h
    unfold extractLoop at h
    by_cases hA : authorOK m ∧ entityID m ∉ su
    · rw [if_pos hA] at h
      dsimp only at h
      rcases ih _ _ _ _ h with h2 | ⟨m2, hm2, hok, hr⟩ | ⟨m2, hm2, t2, ht2, hty, hr⟩
      · rcases processEntities_mem _ _ _ _ h2 with h3 | ⟨t2, ht2, hty, hr⟩
        · rcases List.mem_append.mp h3 with h4 | h4
          · exact Or.inl h4
          · rcases List.mem_singleton.mp h4 with rfl
            exact Or.inr (Or.inl ⟨m, List.mem_cons_self _ _, hA.1, rfl⟩)
        · exact Or.inr (Or.inr ⟨m, List.mem_cons_self _ _, t2, ht2, hty, hr⟩)
      · exact Or.inr (Or.inl ⟨m2, List.mem_cons_of_mem _ hm2, hok, hr⟩)
      · exact Or.inr (Or.inr ⟨m2, List.mem_cons_of_mem _ hm2, t2, ht2, hty, hr⟩)
    · rw [if_neg hA] at h
      dsimp only at h
      rcases ih _ _ _ _ h with h2 | ⟨m2, hm2, hok, hr⟩ | ⟨m2, hm2, t2, ht2, hty, hr⟩
      · rcases processEntities_mem _ _ _ _ h2 with h3 | ⟨t2, ht2, hty, hr⟩
        · exact Or.inl h3
        · exact Or.inr (Or.inr ⟨m, List.mem_cons_self _ _, t2, ht2, hty, hr⟩)
      · exact Or.inr (Or.inl ⟨m2, List.mem_cons_of_mem _ hm2, hok, hr⟩)
      · exact Or.inr (Or.inr ⟨m2, List.mem_cons_of_mem _ hm2, t2, ht2, hty, hr⟩)

/-- C2: extraction emits an author participant for exactly the entity ids
(`(from_id, from)` for ordinary messages, `(actor_id, actor)` for service
messages) that start with `user`, have a non-empty name and a name other
than `Deleted Account` — never more than one per id, each carrying the
name of a qualifying message — and, independently, one mention-only
participant per distinct mention text; the two dedup spaces (author ids,
mention usernames) do not interfere. -/
theorem extractRawParticipants_spec (chat : ExportedChat) :
    (∀ e : String, e ≠ "" →
      ((∃ r ∈ extractRawParticipants chat, r.userID = e) ↔
        ∃ m ∈ chat.messages, entityID m = e ∧ authorOK m)) ∧
    (∀ e : String, e ≠ "" →
      (extractRawParticipants chat).countP (fun r => decide (r.userID = e)) ≤ 1) ∧
    (∀ r ∈ extractRawParticipants chat, r.userID ≠ "" →
      r.username = "" ∧
      ∃ m ∈ chat.messages, entityID m = r.userID ∧ entityName m = r.name ∧ authorOK m) ∧
    (∀ u : String,
      ((∃ r ∈ extractRawParticipants chat, r.userID = "" ∧ r.username = u) ↔
        ∃ m ∈ chat.messages, ∃ t ∈ m.textEntities, t.type = "mention" ∧ t.text = u)) ∧
    (∀ u : String,
      (extractRawParticipants chat).countP
        (fun r => decide (r.userID = "" ∧ r.username = u)) ≤ 1) := by
  have hca : ∀ e : String, e ≠ "" →
      (extractRawParticipants chat).countP (fun r => decide (r.userID = e)) =
        if ∃ m ∈ chat.messages, entityID m = e ∧ authorOK m then 1 else 0 := by
    intro e he
    have h := extractLoop_count_author chat.messages [] [] [] e he
    rw [show extractRawParticipants chat = extractLoop chat.messages [] [] [] from rfl, h]
    simp
  have hcm : ∀ u : String,
      (extractRawParticipants chat).countP
          (fun r => decide (r.userID = "" ∧ r.username = u)) =
        if ∃ m ∈ chat.messages, ∃ t ∈ m.textEntities, t.type = "mention" ∧ t.text = u
        then 1 else 0 := by
    intro u
    have h := extractLoop_count_mention chat.messages [] [] [] u
    rw [show extractRawParticipants chat = extractLoop chat.messages [] [] [] from rfl, h]
    simp
  refine ⟨?_, ?_, ?_, ?_, ?_⟩
  · intro e he
    constructor
    · rintro ⟨r, hr, hrid⟩
      have hpos : 0 < (extractRawParticipants chat).countP (fun r => decide (r.userID = e)) :=
        List.countP_pos.mpr ⟨r, hr, by simp [hrid]⟩
      rw [hca e he] at hpos
      by_contra hnone
      rw [if_neg hnone] at hpos
      omega
    · intro hex
      have : (extractRawParticipants chat).countP (fun r => decide (r.userID = e)) = 1 := by
        rw [hca e he, if_pos hex]
      have hpos : 0 < (extractRawParticipants chat).countP (fun r => decide (r.userID = e)) := by
        omega
      obtain ⟨r, hr, hp⟩ := List.countP_pos.mp hpos
      exact ⟨r, hr, by simpa using hp⟩
  · intro e he
    rw [hca e he]
    split <;> omega
  · intro r hr hne
    rcases extractLoop_mem chat.messages [] [] [] r hr with h | ⟨m, hm, hok, hrr⟩ | ⟨m, hm, t, ht, hty, hrr⟩
    · exact absurd h (List.not_mem_nil r)
    · subst hrr
      exact ⟨rfl, m, hm, rfl, rfl, hok⟩
    · subst hrr
      exact absurd rfl hne
  · intro u
    constructor
    · rintro ⟨r, hr, hrid, hru⟩
      have hpos : 0 < (extractRawParticipants chat).countP
          (fun r => decide (r.userID = "" ∧ r.username = u)) :=
        List.countP_pos.mpr ⟨r, hr, by simp [hrid, hru]⟩
      rw [hcm u] at hpos
      by_contra hnone
      rw [if_neg hnone] at hpos
      omega
    · intro hex
      have : (extractRawParticipants chat).countP
          (fun r => decide (r.userID = "" ∧ r.username = u)) = 1 := by
        rw [hcm u, if_pos hex]
      have hpos : 0 < (extractRawParticipants chat).countP
          (fun r => decide (r.userID = "" ∧ r.username = u)) := by
        omega
      obtain ⟨r, hr, hp⟩ := List.countP_pos.mp hpos
      have := of_decide_eq_true hp
      exact ⟨r, hr, this.1, this.2⟩
  · intro u
    rw [hcm u]
    split <;> omega

/-- C2 witness: spec scenario 1 — two authors plus one mention — checked
through the iff of the main theorem on a concrete chat. -/
theorem extractRawParticipants_spec_witness :
    ∃ r ∈ extractRawParticipants
      ⟨"c", "t", 1,
        [⟨"message", "John", "user123", "", "", []⟩,
         ⟨"message", "Jane", "user456", "", "", [⟨"mention", "@kate"⟩]⟩]⟩,
      r.userID = "user123" :=
  ((extractRawParticipants_spec
      ⟨"c", "t", 1,
        [⟨"message", "John", "user123", "", "", []⟩,
         ⟨"message", "Jane", "user456", "", "", [⟨"mention", "@kate"⟩]⟩]⟩).1
    "user123" (by decide)).mpr
    ⟨⟨"message", "John", "user123", "", "", []⟩, by decide, by decide, by decide⟩

theorem lookupId_upsert (m : List (Int × User)) (i : Int) (v : User) (j : Int) :
    lookupId (upsertUser m i v) j = if j = i then some v else lookupId m j := by
  induction m with
  | nil =>
    by_cases hj : j = i
    · subst hj
      simp [upsertUser, lookupId, List.find?]
    · have hij : ¬ (i = j) := fun h => hj h.symm
      simp [upsertUser, lookupId, List.find?, hj, hij]
  | cons p rest ih =>
    by_cases hp : p.1 = i
    · rw [show upsertUser (p :: rest) i v = (i, v) :: rest by simp [upsertUser, hp]]
      by_cases hj : j = i
      · subst hj
        simp [lookupId, List.find?]
      · have hij : ¬ (i = j) := fun h => hj h.symm
        have hpj : ¬ (p.1 = j) := by rw [hp]; exact hij
        rw [if_neg hj]
        unfold lookupId
        rw [List.find?_cons_of_neg _ (by simp [hij]), List.find?_cons_of_neg _ (by simp [hpj])]
    · rw [show upsertUser (p :: rest) i v = p :: upsertUser rest i v by
        simp [upsertUser, hp]]
      by_cases hpj : p.1 = j
      · have hj : ¬ (j = i) := fun hc => hp (by rw [hpj, hc])
        rw [if_neg hj]
        unfold lookupId
        rw [List.find?_cons_of_pos _ (by simp [hpj]), List.find?_cons_of_pos _ (by simp [hpj])]
      · unfold lookupId
        rw [List.find?_cons_of_neg _ (by simp [hpj]), List.find?_cons_of_neg _ (by simp [hpj])]
        exact ih

theorem mergeStep_unidentified (st : MergeState) (u : User) :
    (mergeStep st u).unidentified =
      if u.id = 0 then st.unidentified ++ [u] else st.unidentified := by
  unfold mergeStep
  by_cases h0 : u.id = 0
  · rw [if_pos h0, if_pos h0]
  · rw [if_neg h0, if_neg h0]
    by_cases hu : u.username ≠ ""
    · rw [if_pos hu]
    · rw [if_neg hu]
      cases lookupId st.identified u.id <;> rfl

theorem mergeStep_identified_id_ne (st : MergeState) (u : User) (h0 : u.id ≠ 0) :
    (mergeStep st u).identified = upsertUser st.identified u.id u ∨
      (mergeStep st u).identified = st.identified := by
  unfold mergeStep
  rw [if_neg h0]
  by_cases hu : u.username ≠ ""
  · rw [if_pos hu]
    exact Or.inl rfl
  · rw [if_neg hu]
    cases lookupId st.identified u.id with
    | none => exact Or.inl rfl
    | some w => exact Or.inr rfl

theorem mergeStep_identified_id_zero (st : MergeState) (u : User) (h0 : u.id = 0) :
    (mergeStep st u).identified = st.identified := by
  unfold mergeStep
  rw [if_pos h0]

theorem foldl_mergeStep_unidentified (rs : List User) :
    ∀ st : MergeState,
      (rs.foldl mergeStep st).unidentified =
        st.unidentified ++ rs.filter (fun u => decide (u.id = 0)) := by
  induction rs with
  | nil =>
    intro st
    simp
  | cons u rest ih =>
    intro st
    rw [List.foldl_cons, ih, mergeStep_unidentified]
    by_cases h0 : u.id = 0
    · rw [if_pos h0]
      rw [List.filter_cons_of_pos (by simp [h0])]
      simp
    · rw [if_neg h0]
      rw [List.filter_cons_of_neg (by simp [h0])]

theorem mem_upsertUser (m : List (Int × User)) (i : Int) (v : User) (p : Int × User) :
    p ∈ upsertUser m i v → p ∈ m ∨ p = (i, v) := by
  induction m with
  | nil =>
    intro h
    rcases List.mem_singleton.mp h with rfl
    exact Or.inr rfl
  | cons q rest ih =>
    intro h
    by_cases hq : q.1 = i
    · rw [show upsertUser (q :: rest) i v = (i, v) :: rest by simp [upsertUser, hq]] at h
      rcases List.mem_cons.mp h with rfl | hmem
      · exact Or.inr rfl
      · exact Or.inl (List.mem_cons_of_mem _ hmem)
    · rw [show upsertUser (q :: rest) i v = q :: upsertUser rest i v by
        simp [upsertUser, hq]] at h
      rcases List.mem_cons.mp h with rfl | hmem
      · exact Or.inl (List.mem_cons_self _ _)
      · rcases ih hmem with h2 | h2
        · exact Or.inl (List.mem_cons_of_mem _ h2)
        · exact Or.inr h2

theorem keys_upsertUser (m : List (Int × User)) (i : Int) (v : User) (j : Int) :
    j ∈ (upsertUser m i v).map Prod.fst ↔ j ∈ m.map Prod.fst ∨ j = i := by
  induction m with
  | nil => simp [upsertUser]
  | cons q rest ih =>
    by_cases hq : q.1 = i
    · rw [show upsertUser (q :: rest) i v = (i, v) :: rest by simp [upsertUser, hq]]
      simp only [List.map_cons, List.mem_cons, hq]
      constructor
      · rintro (rfl | h)
        · exact Or.inr rfl
        · exact Or.inl (Or.inr h)
      · rintro ((rfl | h) | rfl)
        · exact Or.inl rfl
        · exact Or.inr h
        · exact Or.inl rfl
    · rw [show upsertUser (q :: rest) i v = q :: upsertUser rest i v by
        simp [upsertUser, hq]]
      simp only [List.map_cons, List.mem_cons, ih]
      constructor
      · rintro (rfl | h | rfl)
        · exact Or.inl (Or.inl rfl)
        · exact Or.inl (Or.inr h)
        · exact Or.inr rfl
      · rintro ((rfl | h) | rfl)
        · exact Or.inl rfl
        · exact Or.inr (Or.inl h)
        · exact Or.inr (Or.inr rfl)

theorem keysNodup_upsertUser (m : List (Int × User)) (i : Int) (v : User)
    (h : KeysNodup m) : KeysNodup (upsertUser m i v) := by
  induction m with
  | nil =>
    simp [upsertUser, KeysNodup]
  | cons q rest ih =>
    by_cases hq : q.1 = i
    · rw [show upsertUser (q :: rest) i v = (i, v) :: rest by simp [upsertUser, hq]]
      unfold KeysNodup at h ⊢
      simp only [List.map_cons, List.nodup_cons] at h ⊢
      exact ⟨by rw [← hq]; exact h.1, h.2⟩
    · rw [show upsertUser (q :: rest) i v = q :: upsertUser rest i v by
        simp [upsertUser, hq]]
      unfold KeysNodup at h ⊢
      simp only [List.map_cons, List.nodup_cons] at h ⊢
      refine ⟨?_, ih h.2⟩
      intro hc
      rcases (keys_upsertUser rest i v q.1).mp hc with h2 | h2
      · exact h.1 h2
      · exact hq h2

theorem foldl_mergeStep_WF (rs : List User) :
    ∀ st : MergeState, KeysNodup st.identified →
      (∀ p ∈ st.identified, p.2.id = p.1 ∧ p.1 ≠ 0) →
      KeysNodup (rs.foldl mergeStep st).identified ∧
      (∀ p ∈ (rs.foldl mergeStep st).identified, p.2.id = p.1 ∧ p.1 ≠ 0) := by
  induction rs with
  | nil =>
    intro st h1 h2
    exact ⟨h1, h2⟩
  | cons u rest ih =>
    intro st h1 h2
    rw [List.foldl_cons]
    apply ih
    · by_cases h0 : u.id = 0
      · rw [mergeStep_identified_id_zero st u h0]
        exact h1
      · rcases mergeStep_identified_id_ne st u h0 with he | he
        · rw [he]
          exact keysNodup_upsertUser _ _ _ h1
        · rw [he]
          exact h1
    · by_cases h0 : u.id = 0
      · rw [mergeStep_identified_id_zero st u h0]
        exact h2
      · rcases mergeStep_identified_id_ne st u h0 with he | he
        · rw [he]
          intro p hp
          rcases mem_upsertUser _ _ _ _ hp with hm | rfl
          · exact h2 p hm
          · exact ⟨rfl, h0⟩
        · rw [he]
          exact h2

theorem mergeStep_lookupId_ne (st : MergeState) (u : User) (i : Int) (h : u.id ≠ i) :
    lookupId (mergeStep st u).identified i = lookupId st.identified i := by
  by_cases h0 : u.id = 0
  · rw [mergeStep_identified_id_zero st u h0]
  · rcases mergeStep_identified_id_ne st u h0 with he | he
    · rw [he, lookupId_upsert, if_neg (fun hc => h hc.symm)]
    · rw [he]

theorem lastFilter_cons {α : Type} (p : α → Bool) (a : α) (rest : List α) :
    lastFilter p (a :: rest) =
      match lastFilter p rest with
      | some w => some w
      | none => if p a then some a else none := by
  conv_lhs => unfold lastFilter

theorem firstFilter_cons {α : Type} (p : α → Bool) (a : α) (rest : List α) :
    firstFilter p (a :: rest) = if p a then some a else firstFilter p rest := by
  conv_lhs => unfold firstFilter

theorem lookupId_foldl_mergeStep (i : Int) (hi : i ≠ 0) (rs : List User) :
    ∀ st : MergeState,
      lookupId (rs.foldl mergeStep st).identified i =
        match lastFilter (fun u => decide (u.id = i ∧ u.username ≠ "")) rs with
        | some w => some w
        | none =>
          match lookupId st.identified i with
          | some o => some o
          | none => firstFilter (fun u => decide (u.id = i)) rs := by
  induction rs with
  | nil =>
    intro st
    dsimp [lastFilter, firstFilter]
    cases lookupId st.identified i <;> rfl
  | cons u rest ih =>
    intro st
    rw [List.foldl_cons, ih (mergeStep st u), lastFilter_cons, firstFilter_cons]
    cases hW : lastFilter (fun u => decide (u.id = i ∧ u.username ≠ "")) rest with
    | some w => rfl
    | none =>
      dsimp only
      by_cases hpu : u.id = i ∧ u.username ≠ ""
      · have hlk : lookupId (mergeStep st u).identified i = some u := by
          unfold mergeStep
          rw [if_neg (show ¬ u.id = 0 from fun hc => hi (hpu.1.symm.trans hc)),
            if_pos hpu.2, lookupId_upsert, hpu.1, if_pos rfl]
        rw [hlk, if_pos (decide_eq_true hpu)]
      · have hpu2 : ¬ (decide (u.id = i ∧ u.username ≠ "") = true) := by
          rw [decide_eq_true_eq]
          exact hpu
        by_cases hid : u.id = i
        · have hun : u.username = "" := by
            by_contra hc
            exact hpu ⟨hid, hc⟩
          have hne0 : ¬ (u.id = 0) := fun hc => hi (hid.symm.trans hc)
          cases hlk : lookupId st.identified u.id with
          | some o =>
            have hunch : (mergeStep st u).identified = st.identified := by
              unfold mergeStep
              rw [if_neg hne0, if_neg (not_ne_iff.mpr hun), hlk]
            rw [hunch]
            rw [if_neg hpu2]
            rw [hid] at hlk
            rw [hlk]
          | none =>
            have hups : (mergeStep st u).identified = upsertUser st.identified u.id u := by
              unfold mergeStep
              rw [if_neg hne0, if_neg (not_ne_iff.mpr hun), hlk]
            rw [hups, lookupId_upsert, if_pos hid.symm]
            rw [if_neg hpu2]
            have hlk2 : lookupId st.identified i = none := hid ▸ hlk
            rw [hlk2, if_pos (decide_eq_true hid)]
        · have hlk := mergeStep_lookupId_ne st u i (fun hc => hid hc)
          rw [hlk]
          have hid2 : ¬ (decide (u.id = i) = true) := by
            rw [decide_eq_true_eq]
            exact hid
          rw [if_neg hpu2, if_neg hid2]

theorem lastFilter_eq_none_iff {α : Type} (p : α → Bool) (l : List α) :
    lastFilter p l = none ↔ ∀ a ∈ l, ¬ p a = true := by
  induction l with
  | nil => simp [lastFilter]
  | cons a rest ih =>
    rw [lastFilter_cons]
    cases hr : lastFilter p rest with
    | some w =>
      dsimp only
      constructor
      · intro h
        exact absurd h (by simp)
      · intro h
        have hnone : lastFilter p rest = none :=
          ih.mpr (fun b hb => h b (List.mem_cons_of_mem _ hb))
        rw [hnone] at hr
        exact absurd hr (by simp)
    | none =>
      dsimp only
      by_cases hp : p a = true
      · rw [if_pos hp]
        constructor
        · intro h
          exact absurd h (by simp)
        · intro h
          exact absurd hp (h a (List.mem_cons_self _ _))
      · rw [if_neg hp]
        constructor
        · intro _ b hb
          rcases List.mem_cons.mp hb with rfl | hmem
          · exact hp
          · exact (ih.mp hr) b hmem
        · intro _
          rfl

theorem lastFilter_some_mem {α : Type} (p : α → Bool) (l : List α) (w : α)
    (h : lastFilter p l = some w) : w ∈ l ∧ p w = true := by
  induction l with
  | nil => exact absurd h (by simp [lastFilter])
  | cons a rest ih =>
    rw [lastFilter_cons] at h
    cases hr : lastFilter p rest with
    | some w2 =>
      rw [hr] at h
      injection h with h
      subst h
      obtain ⟨hm, hp⟩ := ih hr
      exact ⟨List.mem_cons_of_mem _ hm, hp⟩
    | none =>
      rw [hr] at h
      dsimp only at h
      by_cases hp : p a = true
      · rw [if_pos hp] at h
        injection h with h
        subst h
        exact ⟨List.mem_cons_self _ _, hp⟩
      · rw [if_neg hp] at h
        exact absurd h (by simp)

theorem lastFilter_eq_of_unique {α : Type} (p : α → Bool) (l : List α) (w : α)
    (hmem : w ∈ l) (hw : p w = true) (huniq : ∀ a ∈ l, p a = true → a = w) :
    lastFilter p l = some w := by
  induction l with
  | nil => exact absurd hmem (List.not_mem_nil w)
  | cons a rest ih =>
    rw [lastFilter_cons]
    cases hr : lastFilter p rest with
    | some w2 =>
      obtain ⟨hm2, hp2⟩ := lastFilter_some_mem p rest w2 hr
      rw [huniq w2 (List.mem_cons_of_mem _ hm2) hp2]
    | none =>
      dsimp only
      have hnone := (lastFilter_eq_none_iff p rest).mp hr
      rcases List.mem_cons.mp hmem with rfl | hmem2
      · rw [if_pos hw]
      · exact absurd hw (hnone w hmem2)

theorem firstFilter_eq_none_iff {α : Type} (p : α → Bool) (l : List α) :
    firstFilter p l = none ↔ ∀ a ∈ l, ¬ p a = true := by
  induction l with
  | nil => simp [firstFilter]
  | cons a rest ih =>
    rw [firstFilter_cons]
    by_cases hp : p a = true
    · rw [if_pos hp]
      constructor
      · intro h
        exact absurd h (by simp)
      · intro h
        exact absurd hp (h a (List.mem_cons_self _ _))
    · rw [if_neg hp]
      rw [ih]
      constructor
      · intro h b hb
        rcases List.mem_cons.mp hb with rfl | hmem
        · exact hp
        · exact h b hmem
      · intro h b hb
        exact h b (List.mem_cons_of_mem _ hb)

theorem firstFilter_eq_of_unique {α : Type} (p : α → Bool) (l : List α) (w : α)
    (hmem : w ∈ l) (hw : p w = true) (huniq : ∀ a ∈ l, p a = true → a = w) :
    firstFilter p l = some w := by
  induction l with
  | nil => exact absurd hmem (List.not_mem_nil w)
  | cons a rest ih =>
    rw [firstFilter_cons]
    by_cases hp : p a = true
    · rw [if_pos hp, huniq a (List.mem_cons_self _ _) hp]
    · rw [if_neg hp]
      rcases List.mem_cons.mp hmem with rfl | hmem2
      · exact absurd hw hp
      · exact ih hmem2 (fun b hb hpb => huniq b (List.mem_cons_of_mem _ hb) hpb)

theorem lookupId_mem (m : List (Int × User)) (i : Int) (v : User)
    (h : lookupId m i = some v) : (i, v) ∈ m := by
  unfold lookupId at h
  cases hf : List.find? (fun p => p.1 = i) m with
  | none =>
    rw [hf] at h
    exact absurd h (by simp)
  | some q =>
    rw [hf] at h
    have hq1 : q.1 = i := by simpa using List.find?_some hf
    have hq2 : q.2 = v := by simpa using h
    have hqm : q ∈ m := List.mem_of_find?_eq_some hf
    rw [← hq1, ← hq2]
    exact hqm

theorem lookupId_eq_none_iff (m : List (Int × User)) (i : Int) :
    lookupId m i = none ↔ ∀ v, (i, v) ∉ m := by
  unfold lookupId
  rw [Option.map_eq_none', List.find?_eq_none]
  constructor
  · intro h v hv
    have := h (i, v) hv
    simp at this
  · intro h p hp
    simp only [decide_eq_true_eq]
    intro hc
    exact h p.2 (by rw [← hc]; exact hp)

theorem mem_lookupId (m : List (Int × User)) (i : Int) (v : User)
    (hnd : KeysNodup m) (h : (i, v) ∈ m) : lookupId m i = some v := by
  induction m with
  | nil => exact absurd h (List.not_mem_nil _)
  | cons q rest ih =>
    unfold KeysNodup at hnd
    simp only [List.map_cons, List.nodup_cons] at hnd
    rcases List.mem_cons.mp h with rfl | hmem
    · unfold lookupId
      rw [List.find?_cons_of_pos _ (by simp)]
      rfl
    · have hq1 : ¬ (q.1 = i) := by
        intro hc
        apply hnd.1
        rw [hc]
        exact List.mem_map.mpr ⟨(i, v), hmem, rfl⟩
      unfold lookupId
      rw [List.find?_cons_of_neg _ (by simp [hq1])]
      exact ih hnd.2 hmem

theorem assoc_perm_of_lookupId_eq (m1 : List (Int × User)) :
    ∀ m2 : List (Int × User), KeysNodup m1 → KeysNodup m2 →
      (∀ i, lookupId m1 i = lookupId m2 i) → List.Perm m1 m2 := by
  induction m1 with
  | nil =>
    intro m2 h1 h2 h
    cases m2 with
    | nil => exact List.Perm.refl []
    | cons q t =>
      have hsome : lookupId (q :: t) q.1 = some q.2 := by
        unfold lookupId
        rw [List.find?_cons_of_pos _ (by simp)]
        rfl
      rw [← h q.1] at hsome
      exact absurd hsome (by simp [lookupId, List.find?])
  | cons q t ih =>
    intro m2 h1 h2 h
    have hq1 : lookupId (q :: t) q.1 = some q.2 := by
      unfold lookupId
      rw [List.find?_cons_of_pos _ (by simp)]
      rfl
    have hq2 : (q.1, q.2) ∈ m2 := lookupId_mem m2 q.1 q.2 (by rw [← h q.1]; exact hq1)
    have hqm2 : q ∈ m2 := by
      rw [show ((q.1, q.2) : Int × User) = q from rfl] at hq2
      exact hq2
    obtain ⟨l1, l2, rfl⟩ := List.append_of_mem hqm2
    have hperm2 : List.Perm (l1 ++ q :: l2) (q :: (l1 ++ l2)) := List.perm_middle
    have hndt : KeysNodup t := by
      unfold KeysNodup at h1 ⊢
      simp only [List.map_cons, List.nodup_cons] at h1
      exact h1.2
    have hkeys : ((l1 ++ q :: l2).map Prod.fst).Nodup := h2
    have hkeys2 : (l1.map Prod.fst ++ q.1 :: l2.map Prod.fst).Nodup := by
      simpa using hkeys
    have hq_keys : q.1 ∉ l1.map Prod.fst ∧ q.1 ∉ l2.map Prod.fst := by
      have := List.Nodup.not_mem (List.nodup_middle.mp hkeys2)
      simp only [List.mem_append] at this
      exact ⟨fun hc => this (Or.inl hc), fun hc => this (Or.inr hc)⟩
    have hnde : KeysNodup (l1 ++ l2) := by
      unfold KeysNodup
      rw [List.map_append]
      exact List.Nodup.of_cons (List.nodup_middle.mp hkeys2)
    have hq_not_t : ∀ v, (q.1, v) ∉ t := by
      intro v hv
      unfold KeysNodup at h1
      simp only [List.map_cons, List.nodup_cons] at h1
      exact h1.1 (List.mem_map.mpr ⟨(q.1, v), hv, rfl⟩)
    have hq_not_e : ∀ v, (q.1, v) ∉ l1 ++ l2 := by
      intro v hv
      rcases List.mem_append.mp hv with hc | hc
      · exact hq_keys.1 (List.mem_map.mpr ⟨(q.1, v), hc, rfl⟩)
      · exact hq_keys.2 (List.mem_map.mpr ⟨(q.1, v), hc, rfl⟩)
    have hlk : ∀ i, lookupId t i = lookupId (l1 ++ l2) i := by
      intro i
      by_cases hiq : i = q.1
      · subst hiq
        rw [(lookupId_eq_none_iff t q.1).mpr hq_not_t,
          (lookupId_eq_none_iff (l1 ++ l2) q.1).mpr hq_not_e]
      · have hqi : ¬ (q.1 = i) := fun hc => hiq hc.symm
        have hti : lookupId t i = lookupId (q :: t) i := by
          unfold lookupId
          rw [List.find?_cons_of_neg _ (by simp [hqi])]
        rw [hti, h i]
        cases hm2i : lookupId (l1 ++ q :: l2) i with
        | some v =>
          have hvm : (i, v) ∈ l1 ++ q :: l2 := lookupId_mem _ i v hm2i
          have hve : (i, v) ∈ l1 ++ l2 := by
            rcases List.mem_append.mp hvm with hc | hc
            · exact List.mem_append.mpr (Or.inl hc)
            · rcases List.mem_cons.mp hc with heq | hc2
              · exact absurd (congrArg Prod.fst heq) hiq
              · exact List.mem_append.mpr (Or.inr hc2)
          exact (mem_lookupId (l1 ++ l2) i v hnde hve).symm
        | none =>
          have hnone : ∀ v, (i, v) ∉ l1 ++ l2 := by
            intro v hv
            apply (lookupId_eq_none_iff (l1 ++ q :: l2) i).mp hm2i v
            rcases List.mem_append.mp hv with hc | hc
            · exact List.mem_append.mpr (Or.inl hc)
            · exact List.mem_append.mpr (Or.inr (List.mem_cons_of_mem _ hc))
          rw [(lookupId_eq_none_iff (l1 ++ l2) i).mpr hnone]
    exact (List.Perm.cons q (ih (l1 ++ l2) hndt hnde hlk)).trans hperm2.symm

theorem firstFilter_some_mem {α : Type} (p : α → Bool) (l : List α) (w : α)
    (h : firstFilter p l = some w) : w ∈ l ∧ p w = true := by
  induction l with
  | nil => exact absurd h (by simp [firstFilter])
  | cons a rest ih =>
    rw [firstFilter_cons] at h
    by_cases hp : p a = true
    · rw [if_pos hp] at h
      injection h with h
      subst h
      exact ⟨List.mem_cons_self _ _, hp⟩
    · rw [if_neg hp] at h
      obtain ⟨hm, hw⟩ := ih h
      exact ⟨List.mem_cons_of_mem _ hm, hw⟩

theorem mergeResults_lookup_perm (rs rs2 : List User) (hperm : List.Perm rs rs2)
    (hcons : idConsistent rs) (i : Int) (hi : i ≠ 0) :
    lookupId (mergeResults rs).identified i = lookupId (mergeResults rs2).identified i := by
  unfold mergeResults
  rw [lookupId_foldl_mergeStep i hi rs, lookupId_foldl_mergeStep i hi rs2]
  cases hW : lastFilter (fun u => decide (u.id = i ∧ u.username ≠ "")) rs with
  | some w =>
    obtain ⟨hwm, hwp⟩ := lastFilter_some_mem _ rs w hW
    obtain ⟨hwid, hwun⟩ := of_decide_eq_true hwp
    have huniq : ∀ a ∈ rs, decide (a.id = i ∧ a.username ≠ "") = true → a = w := by
      intro a ha hap
      obtain ⟨haid, haun⟩ := of_decide_eq_true hap
      exact (hcons a ha w hwm (haid.trans hwid.symm) (haid ▸ hi)).1 haun hwun
    have hW2 : lastFilter (fun u => decide (u.id = i ∧ u.username ≠ "")) rs2 = some w :=
      lastFilter_eq_of_unique _ rs2 w (hperm.subset hwm) hwp
        (fun a ha hap => huniq a (hperm.symm.subset ha) hap)
    rw [hW2]
  | none =>
    have hWn := (lastFilter_eq_none_iff _ rs).mp hW
    have hW2 : lastFilter (fun u => decide (u.id = i ∧ u.username ≠ "")) rs2 = none :=
      (lastFilter_eq_none_iff _ rs2).mpr (fun a ha => hWn a (hperm.symm.subset ha))
    rw [hW2]
    dsimp only
    have hinit : lookupId (MergeState.mk [] []).identified i = none := rfl
    rw [hinit]
    have hallun : ∀ a ∈ rs, a.id = i → a.username = "" := by
      intro a ha haid
      by_contra hc
      exact hWn a ha (decide_eq_true ⟨haid, hc⟩)
    cases hN : firstFilter (fun u => decide (u.id = i)) rs with
    | none =>
      have hNn := (firstFilter_eq_none_iff _ rs).mp hN
      have hN2 : firstFilter (fun u => decide (u.id = i)) rs2 = none :=
        (firstFilter_eq_none_iff _ rs2).mpr (fun a ha => hNn a (hperm.symm.subset ha))
      rw [hN2]
    | some w =>
      obtain ⟨hwm, hwp⟩ := firstFilter_some_mem _ rs w hN
      have hwid : w.id = i := of_decide_eq_true hwp
      have huniq : ∀ a ∈ rs, decide (a.id = i) = true → a = w := by
        intro a ha hap
        have haid : a.id = i := of_decide_eq_true hap
        refine (hcons a ha w hwm (haid.trans hwid.symm) (haid ▸ hi)).2 ?_
        intro w2 hw2 hw2id
        exact hallun w2 hw2 (hw2id.trans haid)
      have hN2 : firstFilter (fun u => decide (u.id = i)) rs2 = some w :=
        firstFilter_eq_of_unique _ rs2 w (hperm.subset hwm) hwp
          (fun a ha hap => huniq a (hperm.symm.subset ha) hap)
      rw [hN2]

/-- C1 counterexample: two results with the same non-zero id but
different non-empty usernames.  Both orders are permutations of each
other, yet the merged outputs differ even as multisets — the last
username-carrying result wins — so the merge outcome is not independent
of arrival order. -/
theorem mergeOrder_cex :
    List.Perm [(⟨1, "", "a", "", ""⟩ : User), ⟨1, "", "b", "", ""⟩]
      [⟨1, "", "b", "", ""⟩, ⟨1, "", "a", "", ""⟩] ∧
    ¬ List.Perm
      (flattenState (mergeResults [(⟨1, "", "a", "", ""⟩ : User), ⟨1, "", "b", "", ""⟩]))
      (flattenState (mergeResults [⟨1, "", "b", "", ""⟩, ⟨1, "", "a", "", ""⟩])) := by
  decide

/-- C1 (amended): the coordinator's merge appends every `id = 0` result
to the unidentified list one-to-one (never deduplicated); for `id ≠ 0` a
result with a username overwrites the map entry and a result without one
is inserted only when the id is absent; the map keeps at most one entry
per id, every entry has a non-zero id equal to its key — all of this for
every arrival order.  The outcome is moreover independent of the arrival
order provided the results are id-consistent: for each non-zero id, all
its results that carry a username agree, and when none carries one, all
its results agree (two results sharing an id with different non-empty
usernames make the surviving record order-dependent). -/
theorem mergeResults_policy :
    (∀ rs : List User,
      (mergeResults rs).unidentified = rs.filter (fun u => decide (u.id = 0))) ∧
    (∀ (st : MergeState) (u : User), u.id ≠ 0 → u.username ≠ "" →
      lookupId (mergeStep st u).identified u.id = some u) ∧
    (∀ (st : MergeState) (u : User), u.id ≠ 0 → u.username = "" →
      lookupId (mergeStep st u).identified u.id =
        some ((lookupId st.identified u.id).getD u)) ∧
    (∀ rs : List User, KeysNodup (mergeResults rs).identified ∧
      ∀ p ∈ (mergeResults rs).identified, p.2.id = p.1 ∧ p.1 ≠ 0) ∧
    (∀ rs rs2 : List User, List.Perm rs rs2 → idConsistent rs →
      List.Perm (mergeResults rs).identified (mergeResults rs2).identified ∧
      List.Perm (mergeResults rs).unidentified (mergeResults rs2).unidentified) := by
  have hwf : ∀ rs : List User, KeysNodup (mergeResults rs).identified ∧
      ∀ p ∈ (mergeResults rs).identified, p.2.id = p.1 ∧ p.1 ≠ 0 := by
    intro rs
    exact foldl_mergeStep_WF rs ⟨[], []⟩ (by simp [KeysNodup])
      (by intro p hp; exact absurd hp (List.not_mem_nil p))
  have hunid : ∀ rs : List User,
      (mergeResults rs).unidentified = rs.filter (fun u => decide (u.id = 0)) := by
    intro rs
    unfold mergeResults
    rw [foldl_mergeStep_unidentified]
    rfl
  refine ⟨hunid, ?_, ?_, hwf, ?_⟩
  · intro st u h0 hu
    unfold mergeStep
    rw [if_neg h0, if_pos hu, lookupId_upsert, if_pos rfl]
  · intro st u h0 hu
    unfold mergeStep
    rw [if_neg h0, if_neg (not_ne_iff.mpr hu)]
    cases hlk : lookupId st.identified u.id with
    | some o =>
      rw [hlk]
      rfl
    | none =>
      dsimp only
      rw [lookupId_upsert, if_pos rfl]
      rfl
  · intro rs rs2 hperm hcons
    constructor
    · apply assoc_perm_of_lookupId_eq _ _ (hwf rs).1 (hwf rs2).1
      intro i
      by_cases hi : i = 0
      · subst hi
        rw [(lookupId_eq_none_iff _ 0).mpr ?_, (lookupId_eq_none_iff _ 0).mpr ?_]
        · intro v hv
          exact ((hwf rs2).2 (0, v) hv).2 rfl
        · intro v hv
          exact ((hwf rs).2 (0, v) hv).2 rfl
      · exact mergeResults_lookup_perm rs rs2 hperm hcons i hi
    · rw [hunid rs, hunid rs2]
      exact hperm.filter _

/-- C1 witness: the override rule instantiated at a concrete state and
user. -/
theorem mergeResults_policy_witness :
    lookupId (mergeStep ⟨[], []⟩ ⟨7, "n", "u7", "", ""⟩).identified 7 =
      some ⟨7, "n", "u7", "", ""⟩ :=
  mergeResults_policy.2.1 ⟨[], []⟩ ⟨7, "n", "u7", "", ""⟩ (by decide) (by decide)

end ChatParser
